import Mathlib

/-!
Verification development for the in-memory directory-tree core of the
`irm` interactive file remover (src/src/main.rs).

The Rust code keeps a tree of `Rc<Node>` values with `Weak` parent
back-references.  The shallow embedding below represents the tree as a
plain inductive value (`Node`); parent pointers are represented by
threading the parent's full path (and other inherited attributes) down
the recursion, which is exactly what the parent chain is used for in the
source (`Node::full_path`, `Node::is_parent_selected`).  Filesystem
calls (`fs::read_dir`, `fs::remove_file`, `fs::remove_dir_all`) are
external collaborators; they are modelled by explicit parameters: a
listing (for `scan_dir`) and a success oracle (for the delete calls).
A Rust `panic!` (from `.unwrap()` or `todo!`) is modelled by the
`Outcome.panicked` result.
-/

namespace Irm

/-- `enum DirType { File, Dir, Symlink }` from main.rs. -/
inductive DirType where
| File
| Dir
| Symlink
deriving DecidableEq

/-- `struct Node { name, type_, parent, children }`.  The `parent` weak
reference is not stored; it is recovered by threading inherited data
through traversals (see module comment). -/
inductive Node where
| mk (name : String) (type_ : DirType) (children : List Node)

def Node.name : Node → String
| .mk n _ _ => n

def Node.type_ : Node → DirType
| .mk _ t _ => t

def Node.children : Node → List Node
| .mk _ _ cs => cs

/-- `struct DirTree { base_node: NodeRef }`. -/
structure DirTree where
  base_node : Node

/-- `DirTree::new(path)`: root is an unscanned directory named `path`. -/
def DirTree.new (path : String) : DirTree := ⟨.mk path DirType.Dir []⟩

/-- `Node::full_path`: the root (no parent) is its own name, otherwise
`format!("{}/{}", parent_path, name)`.  `pp` is the threaded parent path. -/
def fullPathFrom : Option String → String → String
| none, nm => nm
| some p, nm => p ++ "/" ++ nm

mutual
/-- `Node::to_array`: push `full_path()`, then recurse into children. -/
def Node.to_array (pp : Option String) : Node → List String
| .mk nm _ cs => fullPathFrom pp nm :: toArrayList (some (fullPathFrom pp nm)) cs

def toArrayList (pp : Option String) : List Node → List String
| [] => []
| c :: cs => Node.to_array pp c ++ toArrayList pp cs
end

/-- `DirTree::to_array` (the `flatten_paths` of the spec). -/
def DirTree.to_array (t : DirTree) : List String := Node.to_array none t.base_node

/-- `path.replace("./", "")` in `DirTree::find_node`: Rust `str::replace`
removes every non-overlapping occurrence of `"./"`, scanning left to
right. -/
def removeDotSlash : List Char → List Char
| '.' :: '/' :: rest => removeDotSlash rest
| c :: rest => c :: removeDotSlash rest
| [] => []

/-- `.split('/')` in `DirTree::find_node`: Rust `str::split` on a char,
which yields `[""]` on the empty string and keeps empty segments. -/
def splitSlash : List Char → List (List Char)
| [] => [[]]
| '/' :: rest => [] :: splitSlash rest
| c :: rest =>
  match splitSlash rest with
  | s :: ss => (c :: s) :: ss
  | [] => [[c]]

/-- The segment list walked by `find_node`: `path.replace("./", "").split('/')`. -/
def segsOf (path : String) : List (List Char) := splitSlash (removeDotSlash path.data)

/-- The per-segment loop of `DirTree::find_node`: at each level, the
first child whose `name` equals the segment (`children.iter().find`). -/
def walkFirst : Node → List (List Char) → Option Node
| n, [] => some n
| n, s :: rest =>
  match n.children.find? (fun c => c.name == String.mk s) with
  | some c => walkFirst c rest
  | none => none

/-- `DirTree::find_node` (the `lookup` of the spec). -/
def DirTree.find_node (t : DirTree) (path : String) : Option Node :=
if path = "." then some t.base_node
else walkFirst t.base_node (segsOf path)

/-- The same walk as `walkFirst`, additionally computing the resolved
node's `full_path()` (which the source recovers from the parent chain). -/
def walkFp : Node → String → List (List Char) → Option (Node × String)
| n, fp, [] => some (n, fp)
| n, fp, s :: rest =>
  match n.children.find? (fun c => c.name == String.mk s) with
  | some c => walkFp c (fp ++ "/" ++ c.name) rest
  | none => none

/-- `find_node` bundled with the resolved node's `full_path()`. -/
def DirTree.resolve_node_fp (t : DirTree) (path : String) : Option (Node × String) :=
if path = "." then some (t.base_node, t.base_node.name)
else walkFp t.base_node t.base_node.name (segsOf path)

/-- Result of an operation that can hit a Rust `panic!` (`unwrap`,
`todo!`, out-of-bounds indexing). -/
inductive Outcome where
| ok
| panicked
deriving DecidableEq

mutual
/-- Apply `f` to the node reached from `n` by the first-match walk along
`segs` (the same walk `find_node` performs), rebuilding the tree on the
way back: the value-level counterpart of mutating through an `Rc`. -/
def modifySegs (f : Node → Node) : Node → List (List Char) → Node
| n, [] => f n
| .mk nm ty cs, s :: rest => .mk nm ty (modifyList f s rest cs)

def modifyList (f : Node → Node) (s : List Char) (rest : List (List Char)) : List Node → List Node
| [] => []
| c :: cs =>
  if c.name == String.mk s then modifySegs f c rest :: cs
  else c :: modifyList f s rest cs
end

/-- `parent.children.retain(|c| c.name != node.name)` applied at a node. -/
def filterNamed (bad : String) : Node → Node
| .mk nm ty cs => .mk nm ty (cs.filter (fun c => !(c.name == bad)))

/-- `DirTree::remove_node`.  `delOk ty fp` models the success of the
filesystem delete (`fs::remove_dir_all` for `Dir`, `fs::remove_file`
for `File`) at the node's `full_path()`.  Faithful to the source order:
the node is detached from its parent *before* the filesystem call, the
symlink case hits `todo!` (a panic) after detaching, and a failed
delete is an `.unwrap()` panic.  The resolved node has no parent (the
root-early-return branch) exactly when `path == "."`, since the walk
descends into a child for every segment. -/
def DirTree.remove_node (t : DirTree) (delOk : DirType → String → Bool) (path : String) :
    DirTree × Outcome :=
match t.resolve_node_fp path with
| none => (t, .panicked)
| some (node, fp) =>
  if path = "." then (t, .ok)
  else
    let t2 : DirTree := ⟨modifySegs (filterNamed node.name) t.base_node (segsOf path).dropLast⟩
    match node.type_ with
    | .Symlink => (t2, .panicked)
    | .Dir => if delOk DirType.Dir fp then (t2, .ok) else (t2, .panicked)
    | .File => if delOk DirType.File fp then (t2, .ok) else (t2, .panicked)

/-- `Node::scan_dir` without the filesystem: append one child per
directory entry, in enumeration order. -/
def Node.scan_dir (entries : List (String × DirType)) : Node → Node
| .mk nm ty cs => .mk nm ty (cs ++ entries.map (fun e => .mk e.1 e.2 []))

/-- Apply `f` at the node `find_node path` resolves to. -/
def DirTree.modify_at (t : DirTree) (path : String) (f : Node → Node) : DirTree :=
if path = "." then ⟨f t.base_node⟩ else ⟨modifySegs f t.base_node (segsOf path)⟩

/-- `App::handle_open_dir` for the node at `path`: scan only when the
node is an unscanned directory; `readRes` is the `fs::read_dir` result,
and its `Err` case hits `.unwrap()` (a panic), as does a failed
`find_node`. -/
def DirTree.open_dir (t : DirTree) (path : String)
    (readRes : Except String (List (String × DirType))) : DirTree × Outcome :=
match t.resolve_node_fp path with
| none => (t, .panicked)
| some (node, _) =>
  if node.children.isEmpty && (node.type_ == DirType.Dir) then
    match readRes with
    | .error _ => (t, .panicked)
    | .ok entries => (t.modify_at path (Node.scan_dir entries), .ok)
  else (t, .ok)

/-- One enriched row: `(Name, DirType, Depth, IsLastOfFolder, IsSelected)`. -/
abbrev TupleNode := String × DirType × Nat × Bool × Bool

mutual
/-- `Node::to_enriched_array`.  The selection set is represented by the
full paths of the selected nodes (the only data `is_selected` reads);
`psel` threads `is_parent_selected`, keeping the source's shape
`selected_nodes.iter().any(|n| n.full_path() == self.full_path() || self.is_parent_selected(..))`. -/
def Node.to_enriched_array (S : List String) (pp : Option String) (depth : Nat)
    (is_last : Bool) (psel : Bool) : Node → List TupleNode
| .mk nm ty cs =>
  (nm, ty, depth, is_last, S.any (fun p => p == fullPathFrom pp nm || psel)) ::
    enrichedList S (some (fullPathFrom pp nm)) (depth + 1)
      (S.any (fun p => p == fullPathFrom pp nm || psel)) 0 cs.length cs

/-- The `for (i, child) in children.enumerate()` loop with
`is_last = i == len - 1`. -/
def enrichedList (S : List String) (pp : Option String) (depth : Nat) (psel : Bool)
    (i len : Nat) : List Node → List TupleNode
| [] => []
| c :: cs =>
  Node.to_enriched_array S pp depth (i == len - 1) psel c ++
    enrichedList S pp depth psel (i + 1) len cs
end

/-- `DirTree::to_enriched_array` (the `flatten_enriched` of the spec):
root starts at depth 0, `is_last = false`, with no parent. -/
def DirTree.to_enriched_array (t : DirTree) (S : List String) : List TupleNode :=
Node.to_enriched_array S none 0 false false t.base_node

/-- A row together with the tree position (child-index path) and full
path of the node that produced it. -/
abbrev PosRow := List Nat × String × TupleNode

mutual
/-- The same traversal as `to_array`/`to_enriched_array`, emitting for
each visited node its position, its full path and its enriched row.
Both flattenings are projections of this single traversal. -/
def Node.rows (S : List String) (base : List Nat) (pp : Option String) (depth : Nat)
    (is_last : Bool) (psel : Bool) : Node → List PosRow
| .mk nm ty cs =>
  (base, fullPathFrom pp nm,
    (nm, ty, depth, is_last, S.any (fun p => p == fullPathFrom pp nm || psel))) ::
    rowsList S base (some (fullPathFrom pp nm)) (depth + 1)
      (S.any (fun p => p == fullPathFrom pp nm || psel)) 0 cs.length cs

def rowsList (S : List String) (base : List Nat) (pp : Option String) (depth : Nat)
    (psel : Bool) (i len : Nat) : List Node → List PosRow
| [] => []
| c :: cs =>
  Node.rows S (base ++ [i]) pp depth (i == len - 1) psel c ++
    rowsList S base pp depth psel (i + 1) len cs
end

def DirTree.rows (t : DirTree) (S : List String) : List PosRow :=
Node.rows S [] none 0 false false t.base_node

/-- Subtree at a child-index position. -/
def Node.nodeAt : Node → List Nat → Option Node
| n, [] => some n
| n, i :: rest =>
  match n.children[i]? with
  | some c => c.nodeAt rest
  | none => none

/-- Full path of the node at a position (threaded, as in `full_path`). -/
def Node.fpAt (pp : Option String) : Node → List Nat → Option String
| n, [] => some (fullPathFrom pp n.name)
| n, i :: rest =>
  match n.children[i]? with
  | some c => Node.fpAt (some (fullPathFrom pp n.name)) c rest
  | none => none

/-- Names of the nodes strictly below `n` along a position. -/
def Node.namesAt : Node → List Nat → Option (List String)
| _, [] => some []
| n, i :: rest =>
  match n.children[i]? with
  | some c => (Node.namesAt c rest).map (fun ns => c.name :: ns)
  | none => none

/-- The toggle of `App::handle_select_dir`, at path level: membership and
removal compare the *stored nodes' full paths* against the given path,
while the added entry is the *resolved node's* full path.  A
non-resolving path is the `.unwrap()` panic (`none`). -/
def DirTree.toggle (t : DirTree) (selected : List String) (path : String) :
    Option (List String) :=
match t.resolve_node_fp path with
| none => none
| some (_, fp) =>
  if selected.any (fun x => x == path) then
    some (selected.filter (fun x => !(x == path)))
  else
    some (selected ++ [fp])

/-- `App::handle_hover_down`: wrap to 0 past the end. -/
def hover_down (arrLen : Nat) (hovered : Option Nat) : Nat :=
match hovered with
| none => 0
| some i => if i ≥ arrLen - 1 then 0 else i + 1

/-- `App::handle_hover_up`: wrap to the last index from 0. -/
def hover_up (arrLen : Nat) (hovered : Option Nat) : Nat :=
match hovered with
| some i => if i = 0 then arrLen - 1 else i - 1
| none => 0

/-- `App::handle_select_dir`: index the flattened array at the cursor
(`arr[idx]` panics when out of range), resolve, then toggle.  The
cursor itself is not modified by the handler. -/
def App.handle_select_dir (t : DirTree) (selected : List String) (hovered : Option Nat) :
    List String × Outcome :=
match hovered with
| none => (selected, .panicked)
| some idx =>
  match (t.to_array)[idx]? with
  | none => (selected, .panicked)
  | some node_path =>
    match t.toggle selected node_path with
    | none => (selected, .panicked)
    | some sel => (sel, .ok)

/-- `App::handle_clear_hovered`: remove the node at the cursor row.  The
handler never updates the cursor. -/
def App.handle_clear_hovered (t : DirTree) (delOk : DirType → String → Bool)
    (hovered : Option Nat) : DirTree × Outcome :=
match hovered with
| none => (t, .panicked)
| some idx =>
  match (t.to_array)[idx]? with
  | none => (t, .panicked)
  | some node_path => t.remove_node delOk node_path

/-- Pairwise-distinct strings (sibling-name uniqueness). -/
def allDiff : List String → Bool
| [] => true
| x :: xs => !xs.contains x && allDiff xs

/-- A name `fs::read_dir` can produce: non-empty, no separator. -/
def validName (s : String) : Bool := !s.isEmpty && !s.data.contains '/'

mutual
/-- Well-formedness that construction, scanning and removal maintain
below a node: children carry valid filesystem names, distinct among
siblings. -/
def Node.inv : Node → Bool
| .mk _ _ cs => allDiff (cs.map Node.name) && childrenInv cs

def childrenInv : List Node → Bool
| [] => true
| c :: cs => validName c.name && Node.inv c && childrenInv cs
end

/-- Tree states reachable in the program: root named "." (as in
`App::default`), well-formed below. -/
def DirTree.wf (t : DirTree) : Bool := (t.base_node.name == ".") && t.base_node.inv

def noTrailingDot (s : String) : Bool := !(s.data.getLast? == some '.')

mutual
/-- No name below this node ends with `'.'` (the names on which
`replace("./", "")` is lossless). -/
def Node.noDotBelow : Node → Bool
| .mk _ _ cs => childrenNoDot cs

def childrenNoDot : List Node → Bool
| [] => true
| c :: cs => noTrailingDot c.name && Node.noDotBelow c && childrenNoDot cs
end

/-- `/`-joined segments (the char-level shape of a full path below the
root). -/
def joinSegs : List (List Char) → List Char
| [] => []
| [s] => s
| s :: rest => s ++ '/' :: joinSegs rest

/-! ### Example trees (all producible by `new "."` followed by scans) -/

/-- Root "." scanned to `a` (dir, scanned to `c`) and `b` (file). -/
def exTree : DirTree := ⟨.mk "." .Dir [.mk "a" .Dir [.mk "c" .File []], .mk "b" .File []]⟩

/-- Root "." scanned to a directory named `x.` (scanned to `y`) next to a
file named `xy`: the names `replace("./", "")` conflates. -/
def exTreeDots : DirTree :=
  ⟨.mk "." .Dir [.mk "x." .Dir [.mk "y" .File []], .mk "xy" .File []]⟩

/-- Root "." scanned to a directory named `a.` scanned to `b`. -/
def exTreeDot : DirTree := ⟨.mk "." .Dir [.mk "a." .Dir [.mk "b" .File []]]⟩

/-- Root "." scanned to a single file `a`. -/
def exTreeA : DirTree := ⟨.mk "." .Dir [.mk "a" .File []]⟩

/-- Root "." scanned to a symlink `s`. -/
def exTreeSym : DirTree := ⟨.mk "." .Dir [.mk "s" .Symlink []]⟩

/-! ### C3, C4, C9: panics and unconditional detachment -/

/-- C3: the claim says a failed filesystem delete leaves the in-memory
tree unchanged.  The code detaches first: on the tree `.` → `a` with a
failing delete, `remove_node "./a"` panics, yet the resulting in-memory
tree has lost `./a`. -/
theorem C3_failed_delete_still_detaches :
    (exTreeA.remove_node (fun _ _ => false) "./a").2 = Outcome.panicked ∧
    (exTreeA.remove_node (fun _ _ => false) "./a").1.to_array = ["."] ∧
    exTreeA.to_array = [".", "./a"] :=
  ⟨rfl, rfl, rfl⟩

/-- C4: the claim says scan/removal failures come back as recoverable
results.  The code panics instead (`unwrap`, `todo!`): an unresolvable
removal path, a failed delete, a symlink removal, a failed directory
read, and an unresolvable open path all end in a panic. -/
theorem C4_failures_panic :
    (exTreeA.remove_node (fun _ _ => true) "./zz").2 = Outcome.panicked ∧
    (exTreeA.remove_node (fun _ _ => false) "./a").2 = Outcome.panicked ∧
    (exTreeSym.remove_node (fun _ _ => true) "./s").2 = Outcome.panicked ∧
    ((DirTree.new ".").open_dir "." (.error "io")).2 = Outcome.panicked ∧
    ((DirTree.new ".").open_dir "./zz" (.ok [])).2 = Outcome.panicked :=
  ⟨rfl, rfl, rfl, rfl, rfl⟩

/-- C9: up/down moves wrap, but nothing re-clamps the cursor after a
mutation: with rows `[".", "./a", "./a/c", "./b"]` and the cursor on the
last index 3, removing the hovered row leaves the cursor at 3 while only
3 rows remain, and the next selection indexes out of range and panics. -/
theorem C9_cursor_not_reclamped :
    hover_down (exTree.to_array.length) (some 3) = 0 ∧
    hover_up (exTree.to_array.length) (some 0) = 3 ∧
    (App.handle_clear_hovered exTree (fun _ _ => true) (some 3)).2 = Outcome.ok ∧
    (App.handle_clear_hovered exTree (fun _ _ => true) (some 3)).1.to_array.length = 3 ∧
    (App.handle_select_dir
      (App.handle_clear_hovered exTree (fun _ _ => true) (some 3)).1 [] (some 3)).2
        = Outcome.panicked :=
  ⟨rfl, rfl, rfl, rfl, rfl⟩

/-! ### C7: toggle involution -/

/-- C7 (counterexample): `"./x./y"` is a resolvable path (it is even a
full path of the reachable tree `exTreeDots`), but `find_node` collapses
it to `"xy"`, so the entry pushed by the toggle is the `./xy` node;
toggling the same path twice starting from the empty selection leaves
`./xy` selected (twice) instead of restoring the empty set. -/
theorem C7_counterexample :
    exTreeDots.wf = true ∧
    exTreeDots.toggle [] "./x./y" = some ["./xy"] ∧
    exTreeDots.toggle ["./xy"] "./x./y" = some ["./xy", "./xy"] ∧
    ¬ (∀ p, p ∈ (["./xy", "./xy"] : List String) ↔ p ∈ ([] : List String)) := by
  refine ⟨rfl, rfl, rfl, fun h => ?_⟩
  have h2 := (h "./xy").mp (by simp)
  simp at h2

theorem C7_toggle_involution (t : DirTree) (S : List String) (path : String) (n : Node)
    (h : t.resolve_node_fp path = some (n, path)) :
    ∃ S1 S2, t.toggle S path = some S1 ∧ t.toggle S1 path = some S2 ∧
      ∀ p, p ∈ S2 ↔ p ∈ S := by
  unfold DirTree.toggle
  rw [h]
  dsimp only
  by_cases hmem : path ∈ S
  · have hany : (S.any fun x => x == path) = true := by
      rw [List.any_eq_true]; exact ⟨path, hmem, by simp⟩
    have hany2 : ((S.filter fun x => !(x == path)).any fun x => x == path) = false := by
      rw [List.any_eq_false]
      intro x hx
      simp only [List.mem_filter] at hx
      simpa using hx.2
    refine ⟨S.filter (fun x => !(x == path)), S.filter (fun x => !(x == path)) ++ [path],
      by rw [if_pos hany], by rw [hany2]; simp, fun p => ?_⟩
    simp only [List.mem_append, List.mem_filter, List.mem_singleton]
    constructor
    · rintro (⟨hp, _⟩ | rfl)
      · exact hp
      · exact hmem
    · intro hp
      by_cases hpp : p = path
      · exact Or.inr hpp
      · exact Or.inl ⟨hp, by simp [hpp]⟩
  · have hany : (S.any fun x => x == path) = false := by
      by_contra hc
      rw [Bool.not_eq_false, List.any_eq_true] at hc
      obtain ⟨x, hx, hxe⟩ := hc
      rw [beq_iff_eq] at hxe
      subst hxe
      exact hmem hx
    have hany2 : ((S ++ [path]).any fun x => x == path) = true := by
      rw [List.any_eq_true]; exact ⟨path, by simp, by simp⟩
    have hfil : ((S ++ [path]).filter fun x => !(x == path)) = S := by
      rw [List.filter_append]
      have h1 : (S.filter fun x => !(x == path)) = S :=
        List.filter_eq_self.mpr (fun a ha => by
          simp only [Bool.not_eq_true', beq_eq_false_iff_ne, ne_eq]
          rintro rfl; exact hmem ha)
      have h2 : (([path] : List String).filter fun x => !(x == path)) = [] := by simp
      rw [h1, h2, List.append_nil]
    refine ⟨S ++ [path], S, by rw [hany]; simp, by rw [if_pos hany2, hfil], fun p => Iff.rfl⟩

theorem C7_toggle_involution_witness :
    exTree.resolve_node_fp "./a" = some (.mk "a" .Dir [.mk "c" .File []], "./a") ∧
    (∃ S1 S2, exTree.toggle ["./b"] "./a" = some S1 ∧ exTree.toggle S1 "./a" = some S2 ∧
      ∀ p, p ∈ S2 ↔ p ∈ ["./b"]) :=
  ⟨rfl, C7_toggle_involution exTree ["./b"] "./a" _ rfl⟩

/-! ### The two flattenings as projections of `rows` -/

mutual
theorem to_array_eq_rows (S : List String) (base : List Nat) (pp : Option String)
    (depth : Nat) (il psel : Bool) :
    ∀ n : Node, Node.to_array pp n = (Node.rows S base pp depth il psel n).map (fun x => x.2.1)
| .mk nm ty cs => by
  simp only [Node.to_array, Node.rows, List.map_cons]
  rw [toArrayList_eq_rowsList S base (some (fullPathFrom pp nm)) (depth + 1)
    (S.any (fun p => p == fullPathFrom pp nm || psel)) 0 cs.length cs]

theorem toArrayList_eq_rowsList (S : List String) (base : List Nat) (pp : Option String)
    (depth : Nat) (psel : Bool) (i len : Nat) :
    ∀ cs : List Node,
      toArrayList pp cs = (rowsList S base pp depth psel i len cs).map (fun x => x.2.1)
| [] => by simp [toArrayList, rowsList]
| c :: cs => by
  simp only [toArrayList, rowsList, List.map_append]
  rw [to_array_eq_rows S (base ++ [i]) pp depth (i == len - 1) psel c,
    toArrayList_eq_rowsList S base pp depth psel (i + 1) len cs]
end

mutual
theorem to_enriched_eq_rows (S : List String) (base : List Nat) (pp : Option String)
    (depth : Nat) (il psel : Bool) :
    ∀ n : Node,
      Node.to_enriched_array S pp depth il psel n
        = (Node.rows S base pp depth il psel n).map (fun x => x.2.2)
| .mk nm ty cs => by
  simp only [Node.to_enriched_array, Node.rows, List.map_cons]
  rw [enrichedList_eq_rowsList S base (some (fullPathFrom pp nm)) (depth + 1)
    (S.any (fun p => p == fullPathFrom pp nm || psel)) 0 cs.length cs]

theorem enrichedList_eq_rowsList (S : List String) (base : List Nat) (pp : Option String)
    (depth : Nat) (psel : Bool) (i len : Nat) :
    ∀ cs : List Node,
      enrichedList S pp depth psel i len cs
        = (rowsList S base pp depth psel i len cs).map (fun x => x.2.2)
| [] => by simp [enrichedList, rowsList]
| c :: cs => by
  simp only [enrichedList, rowsList, List.map_append]
  rw [to_enriched_eq_rows S (base ++ [i]) pp depth (i == len - 1) psel c,
    enrichedList_eq_rowsList S base pp depth psel (i + 1) len cs]
end

/-- C6: `flatten_paths` and `flatten_enriched(S)` are the two
projections of one pre-order depth-first traversal (`DirTree.rows`,
which also records each visited node's position), so they have the same
length and, at every index, describe the same node. -/
theorem C6_flattenings_parallel (t : DirTree) (S : List String) :
    t.to_array = (t.rows S).map (fun x => x.2.1) ∧
    t.to_enriched_array S = (t.rows S).map (fun x => x.2.2) ∧
    t.to_array.length = (t.to_enriched_array S).length := by
  refine ⟨to_array_eq_rows S [] none 0 false false t.base_node,
    to_enriched_eq_rows S [] none 0 false false t.base_node, ?_⟩
  rw [DirTree.to_array, DirTree.to_enriched_array,
    to_array_eq_rows S [] none 0 false false t.base_node,
    to_enriched_eq_rows S [] none 0 false false t.base_node]
  simp

/-! ### Structural facts about `rows` positions -/

def posOf (x : PosRow) : List Nat := x.1
def fpOf (x : PosRow) : String := x.2.1
def nameOf (x : PosRow) : String := x.2.2.1
def lastOf (x : PosRow) : Bool := x.2.2.2.2.2.1
def selOf (x : PosRow) : Bool := x.2.2.2.2.2.2

theorem posGet_of_prefix (a : List Nat) (p : Nat) (v : List Nat) (h : (a ++ [p]) <+: v) :
    v[a.length]? = some p := by
  obtain ⟨t, rfl⟩ := h
  rw [List.append_assoc, List.getElem?_append_right (by simp)]
  simp

mutual
theorem rows_pos_prefix (S : List String) (base : List Nat) (pp : Option String)
    (depth : Nat) (il psel : Bool) :
    ∀ n : Node, ∀ x ∈ Node.rows S base pp depth il psel n, base <+: posOf x
| .mk nm ty cs => by
  intro x hx
  simp only [Node.rows, List.mem_cons] at hx
  rcases hx with rfl | hx
  · exact List.prefix_refl _
  · obtain ⟨p, _, hpre⟩ := rowsList_pos_prefix S base _ _ _ 0 cs.length cs x hx
    exact List.IsPrefix.trans ⟨[p], rfl⟩ hpre

theorem rowsList_pos_prefix (S : List String) (base : List Nat) (pp : Option String)
    (depth : Nat) (psel : Bool) (i len : Nat) :
    ∀ cs : List Node, ∀ x ∈ rowsList S base pp depth psel i len cs,
      ∃ p, i ≤ p ∧ (base ++ [p]) <+: posOf x
| [] => by intro x hx; simp [rowsList] at hx
| c :: cs => by
  intro x hx
  simp only [rowsList, List.mem_append] at hx
  rcases hx with hx | hx
  · exact ⟨i, le_refl i, rows_pos_prefix S (base ++ [i]) _ _ _ _ c x hx⟩
  · obtain ⟨p, hp, hpre⟩ := rowsList_pos_prefix S base _ _ _ (i + 1) len cs x hx
    exact ⟨p, Nat.le_of_succ_le hp, hpre⟩
end

theorem rowsList_mem_iff (S : List String) (base : List Nat) (pp : Option String)
    (depth : Nat) (psel : Bool) (len : Nat) (x : PosRow) :
    ∀ (cs : List Node) (i : Nat),
      x ∈ rowsList S base pp depth psel i len cs ↔
        ∃ j c, cs[j]? = some c ∧
          x ∈ Node.rows S (base ++ [i + j]) pp depth ((i + j) == len - 1) psel c
| [], i => by simp [rowsList]
| c :: cs, i => by
  simp only [rowsList, List.mem_append]
  constructor
  · rintro (hx | hx)
    · exact ⟨0, c, by simp, by simpa using hx⟩
    · obtain ⟨j, c', hj, hmem⟩ := (rowsList_mem_iff S base pp depth psel len x cs (i + 1)).mp hx
      exact ⟨j + 1, c', by simpa using hj, by rw [show i + (j + 1) = i + 1 + j by omega]; exact hmem⟩
  · rintro ⟨j, c', hj, hmem⟩
    cases j with
    | zero =>
      left
      simp only [List.getElem?_cons_zero, Option.some.injEq] at hj
      subst hj
      simpa using hmem
    | succ j =>
      right
      refine (rowsList_mem_iff S base pp depth psel len x cs (i + 1)).mpr ⟨j, c', ?_, ?_⟩
      · simpa using hj
      · rw [show i + 1 + j = i + (j + 1) by omega]; exact hmem

theorem nodeAt_append (q1 q2 : List Nat) :
    ∀ n : Node, n.nodeAt (q1 ++ q2) = (n.nodeAt q1).bind (fun m => m.nodeAt q2) := by
  induction q1 with
  | nil => intro n; simp [Node.nodeAt]
  | cons j q1 ih =>
    intro n
    simp only [List.cons_append, Node.nodeAt]
    cases h : n.children[j]? with
    | none => simp
    | some c => simp [ih c]

theorem any_or_true (S : List String) (hS : S ≠ []) (f : String → Bool) :
    S.any (fun p => f p || true) = true := by
  rw [List.any_eq_true]
  exact ⟨S.head hS, List.head_mem hS, by simp⟩

theorem any_of_mem (S : List String) (P : String) (hP : P ∈ S) (b : Bool) :
    S.any (fun p => p == P || b) = true := by
  rw [List.any_eq_true]
  exact ⟨P, hP, by simp⟩

mutual
theorem rows_pos_nodup (S : List String) (base : List Nat) (pp : Option String)
    (depth : Nat) (il psel : Bool) :
    ∀ n : Node, ((Node.rows S base pp depth il psel n).map posOf).Nodup
| .mk nm ty cs => by
  simp only [Node.rows, List.map_cons]
  rw [List.nodup_cons]
  constructor
  · intro hmem
    obtain ⟨x, hx, hpos⟩ := List.mem_map.mp hmem
    obtain ⟨p, _, hpre⟩ := rowsList_pos_prefix S base _ _ _ 0 cs.length cs x hx
    have := hpre.length_le
    rw [hpos] at this
    simp [posOf] at this
  · exact rowsList_pos_nodup S base _ _ _ 0 cs.length cs

theorem rowsList_pos_nodup (S : List String) (base : List Nat) (pp : Option String)
    (depth : Nat) (psel : Bool) (i len : Nat) :
    ∀ cs : List Node, ((rowsList S base pp depth psel i len cs).map posOf).Nodup
| [] => by simp [rowsList]
| c :: cs => by
  simp only [rowsList, List.map_append]
  refine List.Nodup.append (rows_pos_nodup S (base ++ [i]) _ _ _ _ c)
    (rowsList_pos_nodup S base _ _ _ (i + 1) len cs) ?_
  intro v hv1 hv2
  obtain ⟨x1, hx1, rfl⟩ := List.mem_map.mp hv1
  obtain ⟨x2, hx2, hpos2⟩ := List.mem_map.mp hv2
  have h1 := rows_pos_prefix S (base ++ [i]) _ _ _ _ c x1 hx1
  obtain ⟨p, hp, hpre2⟩ := rowsList_pos_prefix S base _ _ _ (i + 1) len cs x2 hx2
  have g1 := posGet_of_prefix base i (posOf x1) h1
  have g2 := posGet_of_prefix base p (posOf x2) hpre2
  rw [hpos2] at g2
  rw [g1] at g2
  have : i = p := by injection g2
  omega
end

mutual
theorem rows_sel_of_psel (S : List String) (hS : S ≠ []) (base : List Nat)
    (pp : Option String) (depth : Nat) (il : Bool) :
    ∀ n : Node, ∀ x ∈ Node.rows S base pp depth il true n, selOf x = true
| .mk nm ty cs => by
  intro x hx
  simp only [Node.rows, List.mem_cons] at hx
  have hany : S.any (fun p => p == fullPathFrom pp nm || true) = true := any_or_true S hS _
  rcases hx with rfl | hx
  · exact hany
  · rw [hany] at hx
    exact rowsList_sel_of_psel S hS base _ _ 0 cs.length cs x hx

theorem rowsList_sel_of_psel (S : List String) (hS : S ≠ []) (base : List Nat)
    (pp : Option String) (depth : Nat) (i len : Nat) :
    ∀ cs : List Node, ∀ x ∈ rowsList S base pp depth true i len cs, selOf x = true
| [] => by intro x hx; simp [rowsList] at hx
| c :: cs => by
  intro x hx
  simp only [rowsList, List.mem_append] at hx
  rcases hx with hx | hx
  · exact rows_sel_of_psel S hS (base ++ [i]) pp depth _ c x hx
  · exact rowsList_sel_of_psel S hS base pp depth (i + 1) len cs x hx
end

mutual
theorem rows_pos_valid (S : List String) (base : List Nat) (pp : Option String)
    (depth : Nat) (il psel : Bool) :
    ∀ n : Node, ∀ x ∈ Node.rows S base pp depth il psel n,
      ∃ q m, posOf x = base ++ q ∧ n.nodeAt q = some m
| .mk nm ty cs => by
  intro x hx
  simp only [Node.rows, List.mem_cons] at hx
  rcases hx with rfl | hx
  · exact ⟨[], .mk nm ty cs, by simp [posOf], rfl⟩
  · obtain ⟨k, q, m, c, hk, hpos, hat⟩ := rowsList_pos_valid S base _ _ _ 0 cs.length cs x hx
    refine ⟨k :: q, m, by simpa using hpos, ?_⟩
    simp only [Node.nodeAt, Node.children]
    rw [hk]
    exact hat

theorem rowsList_pos_valid (S : List String) (base : List Nat) (pp : Option String)
    (depth : Nat) (psel : Bool) (i len : Nat) :
    ∀ cs : List Node, ∀ x ∈ rowsList S base pp depth psel i len cs,
      ∃ k q m c, cs[k]? = some c ∧ posOf x = base ++ (i + k) :: q ∧ c.nodeAt q = some m
| [] => by intro x hx; simp [rowsList] at hx
| c :: cs => by
  intro x hx
  simp only [rowsList, List.mem_append] at hx
  rcases hx with hx | hx
  · obtain ⟨q, m, hpos, hat⟩ := rows_pos_valid S (base ++ [i]) _ _ _ _ c x hx
    exact ⟨0, q, m, c, by simp, by simpa using hpos, hat⟩
  · obtain ⟨k, q, m, c', hk, hpos, hat⟩ := rowsList_pos_valid S base _ _ _ (i + 1) len cs x hx
    refine ⟨k + 1, q, m, c', by simpa using hk, ?_, hat⟩
    rw [show i + (k + 1) = i + 1 + k by omega]
    exact hpos
end

theorem rowsList_child_mem (S : List String) (base : List Nat) (pp : Option String)
    (depth : Nat) (psel : Bool) (len : Nat) :
    ∀ (cs : List Node) (k i0 : Nat) (c : Node), cs[k]? = some c →
      ∃ fp sel, (base ++ [i0 + k], fp,
        (c.name, c.type_, depth, ((i0 + k) == len - 1), sel))
          ∈ rowsList S base pp depth psel i0 len cs
| [], k, i0, c => by intro h; simp at h
| c' :: cs, 0, i0, c => by
  intro h
  have hcc : c' = c := by simpa using h
  subst hcc
  cases c' with
  | mk nm ty ccs =>
    refine ⟨fullPathFrom pp nm,
      S.any (fun p => p == fullPathFrom pp nm || psel), ?_⟩
    simp only [rowsList, List.mem_append, Node.rows, Node.name, Node.type_]
    left
    rw [Nat.add_zero]
    exact List.mem_cons_self _ _
| c' :: cs, k + 1, i0, c => by
  intro h
  simp only [List.getElem?_cons_succ] at h
  obtain ⟨fp, sel, hmem⟩ := rowsList_child_mem S base pp depth psel len cs k (i0 + 1) c h
  refine ⟨fp, sel, ?_⟩
  simp only [rowsList, List.mem_append]
  right
  rw [show i0 + (k + 1) = i0 + 1 + k by omega]
  exact hmem

theorem rows_mem_of_child_at (S : List String) :
    ∀ (q : List Nat) (base : List Nat) (pp : Option String) (depth : Nat) (il psel : Bool)
      (n par : Node) (i : Nat) (c : Node),
      n.nodeAt q = some par → par.children[i]? = some c →
      ∃ fp sel, (base ++ q ++ [i], fp,
        (c.name, c.type_, depth + q.length + 1, (i == par.children.length - 1), sel))
          ∈ Node.rows S base pp depth il psel n := by
  intro q
  induction q with
  | nil =>
    intro base pp depth il psel n par i c hat hc
    simp only [Node.nodeAt, Option.some.injEq] at hat
    subst hat
    cases n with
    | mk nm ty cs =>
      simp only [Node.children] at hc
      obtain ⟨fp, sel, hmem⟩ :=
        rowsList_child_mem S base (some (fullPathFrom pp nm)) (depth + 1)
          (S.any (fun p => p == fullPathFrom pp nm || psel)) cs.length cs i 0 c
          (by simpa using hc)
      refine ⟨fp, sel, ?_⟩
      simp only [Node.rows, List.mem_cons, List.nil_append, Node.children]
      right
      simpa using hmem
  | cons j q ih =>
    intro base pp depth il psel n par i c hat hc
    cases n with
    | mk nm ty cs =>
      simp only [Node.nodeAt, Node.children] at hat
      cases hj : cs[j]? with
      | none => rw [hj] at hat; simp at hat
      | some cj =>
        rw [hj] at hat
        obtain ⟨fp, sel, hmem⟩ :=
          ih (base ++ [j]) (some (fullPathFrom pp nm)) (depth + 1) ((0 + j) == cs.length - 1)
            (S.any (fun p => p == fullPathFrom pp nm || psel)) cj par i c hat hc
        refine ⟨fp, sel, ?_⟩
        simp only [Node.rows, List.mem_cons]
        right
        rw [rowsList_mem_iff]
        refine ⟨j, cj, hj, ?_⟩
        have heq : base ++ [0 + j] = base ++ [j] := by simp
        rw [heq]
        have hpos : base ++ j :: q ++ [i] = (base ++ [j]) ++ q ++ [i] := by simp
        rw [hpos]
        have hdep : depth + (j :: q).length + 1 = depth + 1 + q.length + 1 := by
          simp [List.length_cons]; omega
        rw [hdep]
        exact hmem

/-- Selection inheritance core: if the node at `qd` below `n` has full
path `P ∈ S`, every row strictly below it is effectively selected. -/
theorem rows_sel_below (S : List String) :
    ∀ (qd : List Nat) (n : Node) (base : List Nat) (pp : Option String) (depth : Nat)
      (il psel : Bool) (dnode : Node) (P : String),
      n.nodeAt qd = some dnode → Node.fpAt pp n qd = some P → P ∈ S →
      ∀ x ∈ Node.rows S base pp depth il psel n,
        (base ++ qd) <+: posOf x → posOf x ≠ base ++ qd → selOf x = true := by
  intro qd
  induction qd with
  | nil =>
    intro n base pp depth il psel dnode P hat hfp hP x hx hpre hne
    cases n with
    | mk nm ty cs =>
      simp only [Node.fpAt, Node.name, Option.some.injEq] at hfp
      simp only [Node.rows, List.mem_cons] at hx
      rcases hx with rfl | hx
      · exact absurd (by simp [posOf]) hne
      · have hany : S.any (fun p => p == fullPathFrom pp nm || psel) = true := by
          rw [hfp]; exact any_of_mem S P hP psel
        rw [hany] at hx
        exact rowsList_sel_of_psel S (by rintro rfl; simp at hP) base _ _ 0 cs.length cs x hx
  | cons j qd ih =>
    intro n base pp depth il psel dnode P hat hfp hP x hx hpre hne
    cases n with
    | mk nm ty cs =>
      simp only [Node.nodeAt, Node.children] at hat
      simp only [Node.fpAt, Node.children, Node.name] at hfp
      cases hj : cs[j]? with
      | none => rw [hj] at hat; simp at hat
      | some cj =>
        rw [hj] at hat hfp
        simp only at hat hfp
        have hsplit : base ++ j :: qd = (base ++ [j]) ++ qd := by simp
        simp only [Node.rows, List.mem_cons] at hx
        rcases hx with rfl | hx
        · exfalso
          have hlen := hpre.length_le
          simp [posOf] at hlen
        · obtain ⟨k, c, hk, hmem⟩ :=
            (rowsList_mem_iff S base _ _ _ cs.length x cs 0).mp hx
          have hprefk := rows_pos_prefix S (base ++ [0 + k]) _ _ _ _ c x hmem
          have gk := posGet_of_prefix base (0 + k) (posOf x) hprefk
          have gj := posGet_of_prefix base j (posOf x)
            (List.IsPrefix.trans (by exact ⟨qd, by simp⟩) hpre)
          rw [gj] at gk
          have hkj : k = j := by
            have : j = 0 + k := by injection gk
            omega
          subst hkj
          rw [show (0 + k) = k by omega] at hmem
          rw [hk] at hj
          have hcj : c = cj := by injection hj
          subst hcj
          refine ih c (base ++ [k]) (some (fullPathFrom pp nm)) (depth + 1)
            ((k == cs.length - 1)) (S.any fun p => p == fullPathFrom pp nm || psel)
            dnode P hat hfp hP x ?_ ?_ ?_
          · exact hmem
          · rw [← hsplit]
            exact hpre
          · rw [← hsplit]
            exact hne

/-- C5: if the directory node at position `qd` has its full path in the
selection set, then in the enriched flattening — the row projection of
`rows`, whose positions identify each row's node — every row strictly
below `qd` carries `is_effectively_selected = true`. -/
theorem C5_selection_inherited (t : DirTree) (S : List String) (qd : List Nat)
    (d : Node) (P : String)
    (h1 : t.base_node.nodeAt qd = some d) (_h2 : d.type_ = DirType.Dir)
    (h3 : Node.fpAt none t.base_node qd = some P) (h4 : P ∈ S) :
    (t.to_enriched_array S = (t.rows S).map (fun x => x.2.2)) ∧
    ∀ x ∈ t.rows S, qd <+: posOf x → posOf x ≠ qd → selOf x = true := by
  refine ⟨to_enriched_eq_rows S [] none 0 false false t.base_node, ?_⟩
  intro x hx hpre hne
  exact rows_sel_below S qd t.base_node [] none 0 false false d P h1 h3 h4 x hx
    (by simpa using hpre) (by simpa using hne)

/-- C5 witness: in the tree `.` → { `a` → { `c` }, `b` } with selection
`["./a"]`, every row strictly below position `[0]` (the row of `./a/c`)
is effectively selected. -/
theorem C5_selection_inherited_witness :
    (exTree.base_node.nodeAt [0] = some (.mk "a" .Dir [.mk "c" .File []])) ∧
    ((Node.mk "a" .Dir [.mk "c" .File []]).type_ = DirType.Dir) ∧
    (Node.fpAt none exTree.base_node [0] = some "./a") ∧
    ("./a" ∈ ["./a"]) ∧
    ((exTree.to_enriched_array ["./a"] = (exTree.rows ["./a"]).map (fun x => x.2.2)) ∧
      ∀ x ∈ exTree.rows ["./a"], [0] <+: posOf x → posOf x ≠ [0] → selOf x = true) :=
  ⟨rfl, rfl, rfl, by simp,
    C5_selection_inherited exTree ["./a"] [0] (.mk "a" .Dir [.mk "c" .File []]) "./a"
      rfl rfl rfl (by simp)⟩

/-- C8: in the enriched flattening (the row projection of `rows`),
positions never repeat, every sibling group `q ++ [i]` of the node at
`q` is fully represented, a row's `is_last_sibling` is `true` exactly
when its child index is the final one of its group, and the root row's
flag is `false`. -/
theorem C8_last_sibling (t : DirTree) (S : List String) (q : List Nat) (n : Node)
    (h : t.base_node.nodeAt q = some n) (hne : n.children ≠ []) :
    (t.to_enriched_array S = (t.rows S).map (fun x => x.2.2)) ∧
    (∀ i, i < n.children.length → ∃ x ∈ t.rows S, posOf x = q ++ [i] ∧
      (lastOf x = true ↔ i = n.children.length - 1)) ∧
    (∀ x ∈ t.rows S, ∀ i, posOf x = q ++ [i] →
      (lastOf x = true ↔ i = n.children.length - 1)) ∧
    ((t.rows S).map posOf).Nodup ∧
    (∀ x ∈ t.rows S, posOf x = [] → lastOf x = false) := by
  have hnd : ((t.rows S).map posOf).Nodup :=
    rows_pos_nodup S [] none 0 false false t.base_node
  have hcomp : ∀ i, i < n.children.length → ∃ x ∈ t.rows S, posOf x = q ++ [i] ∧
      (lastOf x = true ↔ i = n.children.length - 1) := by
    intro i hi
    have hc : n.children[i]? = some n.children[i] := List.getElem?_eq_getElem hi
    obtain ⟨fp, sel, hmem⟩ :=
      rows_mem_of_child_at S q [] none 0 false false t.base_node n i (n.children[i]) h hc
    refine ⟨_, hmem, by simp [posOf], ?_⟩
    simp only [lastOf]
    exact beq_iff_eq
  refine ⟨to_enriched_eq_rows S [] none 0 false false t.base_node, hcomp, ?_, hnd, ?_⟩
  · intro x hx i hpos
    obtain ⟨q0, m, hq0, hatq0⟩ := rows_pos_valid S [] none 0 false false t.base_node x hx
    simp only [List.nil_append] at hq0
    rw [hpos] at hq0
    subst hq0
    rw [nodeAt_append] at hatq0
    rw [h] at hatq0
    simp only [Option.some_bind] at hatq0
    have hc : n.children[i]? = some m := by
      cases n with
      | mk nm ty cs =>
        simp only [Node.nodeAt, Node.children] at hatq0 ⊢
        cases hj : cs[i]? with
        | none => rw [hj] at hatq0; simp at hatq0
        | some c =>
          rw [hj] at hatq0
          simp only [Node.nodeAt] at hatq0
          rw [hatq0]
    obtain ⟨fp, sel, hmem⟩ :=
      rows_mem_of_child_at S q [] none 0 false false t.base_node n i m h hc
    have hxeq : x = ([] ++ q ++ [i], fp,
        (m.name, m.type_, 0 + q.length + 1, (i == n.children.length - 1), sel)) := by
      apply List.inj_on_of_nodup_map hnd hx hmem
      simpa [posOf] using hpos
    rw [hxeq]
    simp only [lastOf]
    exact beq_iff_eq
  · intro x hx hpos
    cases hb : t.base_node with
    | mk nm ty cs =>
      have hx2 : x ∈ Node.rows S [] none 0 false false (Node.mk nm ty cs) := by
        rw [← hb]; exact hx
      simp only [Node.rows, List.mem_cons] at hx2
      rcases hx2 with rfl | hx2
      · rfl
      · exfalso
        obtain ⟨p, _, hpre⟩ := rowsList_pos_prefix S [] _ _ _ 0 cs.length cs x hx2
        have := hpre.length_le
        rw [hpos] at this
        simp at this

/-- C8 witness: the sibling-group facts instantiated on the concrete
tree `.` → { `a` → { `c` }, `b` } at the root group. -/
theorem C8_last_sibling_witness :
    (exTree.base_node.nodeAt [] = some exTree.base_node) ∧
    (exTree.base_node.children ≠ []) ∧
    ((exTree.to_enriched_array [] = (exTree.rows []).map (fun x => x.2.2)) ∧
      (∀ i, i < exTree.base_node.children.length → ∃ x ∈ exTree.rows [],
        posOf x = [] ++ [i] ∧
        (lastOf x = true ↔ i = exTree.base_node.children.length - 1)) ∧
      (∀ x ∈ exTree.rows [], ∀ i, posOf x = [] ++ [i] →
        (lastOf x = true ↔ i = exTree.base_node.children.length - 1)) ∧
      ((exTree.rows []).map posOf).Nodup ∧
      (∀ x ∈ exTree.rows [], posOf x = [] → lastOf x = false)) :=
  ⟨rfl, List.cons_ne_nil _ _,
    C8_last_sibling exTree [] [] exTree.base_node rfl (List.cons_ne_nil _ _)⟩

/-! ### Character-level facts about `replace("./", "")` and `split('/')` -/

/-- Whether the two-character pattern `"./"` occurs anywhere. -/
def hasDotSlash : List Char → Bool
| '.' :: '/' :: _ => true
| _ :: rest => hasDotSlash rest
| [] => false

theorem removeDotSlash_cons (c : Char) (r : List Char)
    (h : ¬(c = '.' ∧ ∃ r2, r = '/' :: r2)) :
    removeDotSlash (c :: r) = c :: removeDotSlash r := by
  rw [removeDotSlash.eq_def]
  split
  · rename_i rest heq
    exfalso
    apply h
    injection heq with h1 h2
    exact ⟨h1, rest, h2⟩
  · rename_i c2 rest heq
    injection heq with h1 h2
    subst h1; subst h2
    rfl
  · rename_i heq
    exact absurd heq (List.cons_ne_nil c r)

theorem hasDotSlash_cons (c : Char) (r : List Char)
    (h : ¬(c = '.' ∧ ∃ r2, r = '/' :: r2)) :
    hasDotSlash (c :: r) = hasDotSlash r := by
  rw [hasDotSlash.eq_def]
  split
  · rename_i rest heq
    exfalso
    apply h
    injection heq with h1 h2
    exact ⟨h1, rest, h2⟩
  · rename_i c2 rest heq
    injection heq with h1 h2
    subst h1; subst h2
    rfl
  · rename_i heq
    exact absurd heq (List.cons_ne_nil c r)

theorem removeDotSlash_id : ∀ (l : List Char), hasDotSlash l = false → removeDotSlash l = l := by
  intro l
  induction l with
  | nil => intro _; rfl
  | cons c r ih =>
    intro h
    by_cases hc : c = '.' ∧ ∃ r2, r = '/' :: r2
    · exfalso
      obtain ⟨rfl, r2, rfl⟩ := hc
      simp [hasDotSlash] at h
    · rw [removeDotSlash_cons c r hc, hasDotSlash_cons c r hc] at *
      rw [ih h]

theorem hasDotSlash_no_slash : ∀ (s : List Char), '/' ∉ s → hasDotSlash s = false := by
  intro s
  induction s with
  | nil => intro _; rfl
  | cons c r ih =>
    intro h
    have hc : ¬(c = '.' ∧ ∃ r2, r = '/' :: r2) := by
      rintro ⟨rfl, r2, rfl⟩
      simp at h
    rw [hasDotSlash_cons c r hc]
    exact ih (fun hm => h (List.mem_cons_of_mem c hm))

theorem hasDotSlash_seg_append :
    ∀ (s : List Char), '/' ∉ s → s.getLast? ≠ some '.' →
      ∀ r, hasDotSlash r = false → hasDotSlash ('/' :: r) = false ∧
        hasDotSlash (s ++ '/' :: r) = false := by
  intro s
  induction s with
  | nil =>
    intro _ _ r hr
    have hsl : hasDotSlash ('/' :: r) = hasDotSlash r := by
      apply hasDotSlash_cons
      rintro ⟨h1, _⟩
      exact absurd h1 (by decide)
    rw [List.nil_append]
    exact ⟨by rw [hsl]; exact hr, by rw [hsl]; exact hr⟩
  | cons c s ih =>
    intro hsf hlast r hr
    have hcs : c ≠ '/' := fun h => hsf (h ▸ List.mem_cons_self c s)
    have hsl : hasDotSlash ('/' :: r) = hasDotSlash r := by
      apply hasDotSlash_cons
      rintro ⟨h1, _⟩
      exact absurd h1 (by decide)
    refine ⟨by rw [hsl]; exact hr, ?_⟩
    cases s with
    | nil =>
      have hcd : c ≠ '.' := by
        intro h
        apply hlast
        rw [h]
        rfl
      rw [List.singleton_append]
      rw [hasDotSlash_cons c ('/' :: r) (by rintro ⟨h1, _⟩; exact hcd h1)]
      rw [hsl]; exact hr
    | cons c2 s2 =>
      have h2 : '/' ∉ (c2 :: s2) := fun hm => hsf (List.mem_cons_of_mem c hm)
      have hc2 : c2 ≠ '/' := fun h => h2 (h ▸ List.mem_cons_self c2 s2)
      have hl2 : (c2 :: s2).getLast? ≠ some '.' := by
        intro h
        apply hlast
        rw [List.getLast?_cons_cons]
        exact h
      have := (ih h2 hl2 r hr).2
      rw [List.cons_append]
      rw [hasDotSlash_cons c ((c2 :: s2) ++ '/' :: r) ?hne]
      · exact this
      case hne =>
        rintro ⟨_, r2, hr2⟩
        rw [List.cons_append] at hr2
        injection hr2 with ha _
        exact hc2 ha

theorem splitSlash_slash (r : List Char) : splitSlash ('/' :: r) = [] :: splitSlash r := rfl

theorem splitSlash_cons (c : Char) (r : List Char) (h : c ≠ '/') :
    splitSlash (c :: r) =
      match splitSlash r with
      | s :: ss => (c :: s) :: ss
      | [] => [[c]] := by
  rw [splitSlash.eq_def]
  split
  · rename_i heq; exact absurd heq (List.cons_ne_nil c r)
  · rename_i rest heq
    injection heq with h1 h2
    exact absurd h1 h
  · rename_i c2 rest heq
    injection heq with h1 h2
    subst h1; subst h2
    rfl

theorem splitSlash_ne_nil : ∀ l : List Char, splitSlash l ≠ [] := by
  intro l
  induction l with
  | nil => exact List.cons_ne_nil _ _
  | cons c r ih =>
    by_cases hc : c = '/'
    · subst hc
      rw [splitSlash_slash]
      exact List.cons_ne_nil _ _
    · rw [splitSlash_cons c r hc]
      cases h : splitSlash r with
      | nil => exact List.cons_ne_nil _ _
      | cons s ss => exact List.cons_ne_nil _ _

theorem splitSlash_no_slash : ∀ s : List Char, '/' ∉ s → splitSlash s = [s] := by
  intro s
  induction s with
  | nil => intro _; rfl
  | cons c r ih =>
    intro h
    have hc : c ≠ '/' := fun hh => h (hh ▸ List.mem_cons_self c r)
    rw [splitSlash_cons c r hc, ih (fun hm => h (List.mem_cons_of_mem c hm))]

theorem splitSlash_append_slash :
    ∀ s : List Char, '/' ∉ s → ∀ r, splitSlash (s ++ '/' :: r) = s :: splitSlash r := by
  intro s
  induction s with
  | nil => intro _ r; rfl
  | cons c s ih =>
    intro h r
    have hc : c ≠ '/' := fun hh => h (hh ▸ List.mem_cons_self c s)
    rw [List.cons_append, splitSlash_cons c (s ++ '/' :: r) hc,
      ih (fun hm => h (List.mem_cons_of_mem c hm)) r]

theorem splitSlash_joinSegs :
    ∀ L : List (List Char), L ≠ [] → (∀ x ∈ L, '/' ∉ x) → splitSlash (joinSegs L) = L
| [] => by intro h _; exact absurd rfl h
| [s] => by
  intro _ hsf
  rw [show joinSegs [s] = s from rfl]
  exact splitSlash_no_slash s (hsf s (List.mem_singleton_self s))
| s :: s2 :: L => by
  intro _ hsf
  rw [show joinSegs (s :: s2 :: L) = s ++ '/' :: joinSegs (s2 :: L) from rfl]
  rw [splitSlash_append_slash s (hsf s (List.mem_cons_self _ _)) _]
  rw [splitSlash_joinSegs (s2 :: L) (List.cons_ne_nil _ _)
    (fun x hx => hsf x (List.mem_cons_of_mem s hx))]

theorem splitSlash_join_append :
    ∀ L : List (List Char), L ≠ [] → (∀ x ∈ L, '/' ∉ x) →
      ∀ r, splitSlash (joinSegs L ++ '/' :: r) = L ++ splitSlash r
| [] => by intro h _; exact absurd rfl h
| [s] => by
  intro _ hsf r
  rw [show joinSegs [s] = s from rfl]
  rw [splitSlash_append_slash s (hsf s (List.mem_singleton_self s)) r]
  rfl
| s :: s2 :: L => by
  intro _ hsf r
  rw [show joinSegs (s :: s2 :: L) = s ++ '/' :: joinSegs (s2 :: L) from rfl]
  rw [List.append_assoc, List.cons_append]
  rw [splitSlash_append_slash s (hsf s (List.mem_cons_self _ _)) _]
  rw [splitSlash_join_append (s2 :: L) (List.cons_ne_nil _ _)
    (fun x hx => hsf x (List.mem_cons_of_mem s hx)) r]
  rfl

theorem splitSlash_sfree : ∀ l : List Char, ∀ x ∈ splitSlash l, '/' ∉ x := by
  intro l
  induction l with
  | nil =>
    intro x hx
    simp only [splitSlash, List.mem_singleton] at hx
    subst hx
    exact List.not_mem_nil '/'
  | cons c r ih =>
    by_cases hc : c = '/'
    · subst hc
      rw [splitSlash_slash]
      intro x hx
      rcases List.mem_cons.mp hx with rfl | hx
      · exact List.not_mem_nil '/'
      · exact ih x hx
    · rw [splitSlash_cons c r hc]
      cases h : splitSlash r with
      | nil => exact absurd h (splitSlash_ne_nil r)
      | cons s ss =>
        intro x hx
        rcases List.mem_cons.mp hx with rfl | hx
        · intro hm
          rcases List.mem_cons.mp hm with h1 | h1
          · exact hc h1.symm
          · exact ih s (h ▸ List.mem_cons_self s ss) h1
        · exact ih x (h ▸ List.mem_cons_of_mem s hx)

/-! ### Walk lemmas and C10 -/

theorem String_mk_data (s : String) : String.mk s.data = s := by
  cases s
  rfl

theorem walkFirst_append :
    ∀ (a b : List (List Char)) (n : Node),
      walkFirst n (a ++ b) = (walkFirst n a).bind (fun m => walkFirst m b) := by
  intro a
  induction a with
  | nil => intro b n; rfl
  | cons s a ih =>
    intro b n
    simp only [List.cons_append, walkFirst]
    cases n.children.find? (fun c => c.name == String.mk s) with
    | none => rfl
    | some c => exact ih b c

theorem walkFirst_eq_walkFp :
    ∀ (segs : List (List Char)) (n : Node) (fp0 : String),
      walkFirst n segs = (walkFp n fp0 segs).map Prod.fst := by
  intro segs
  induction segs with
  | nil => intro n fp0; rfl
  | cons s rest ih =>
    intro n fp0
    simp only [walkFirst, walkFp]
    cases n.children.find? (fun c => c.name == String.mk s) with
    | none => rfl
    | some c => exact ih c (fp0 ++ "/" ++ c.name)

theorem modifySegs_name (f : Node → Node) (hf : ∀ m, (f m).name = m.name) :
    ∀ (q : List (List Char)) (n : Node), (modifySegs f n q).name = n.name := by
  intro q n
  cases q with
  | nil => simp only [modifySegs]; exact hf n
  | cons s rest => cases n with | mk nm ty cs => simp [modifySegs, Node.name]

theorem find?_modifyList (f : Node → Node) (hf : ∀ m, (f m).name = m.name)
    (s : List Char) (rest : List (List Char)) :
    ∀ cs : List Node,
      (modifyList f s rest cs).find? (fun c => c.name == String.mk s)
        = (cs.find? (fun c => c.name == String.mk s)).map (fun c => modifySegs f c rest) := by
  intro cs
  induction cs with
  | nil => rfl
  | cons c cs ih =>
    by_cases hc : (c.name == String.mk s) = true
    · have hname : (modifySegs f c rest).name = c.name := modifySegs_name f hf rest c
      rw [show modifyList f s rest (c :: cs) = modifySegs f c rest :: cs from by
        simp [modifyList, hc]]
      rw [List.find?_cons, List.find?_cons, hname, hc]
      rfl
    · have hcf : (c.name == String.mk s) = false := by
        simpa using hc
      rw [show modifyList f s rest (c :: cs) = c :: modifyList f s rest cs from by
        simp only [modifyList]; rw [if_neg hc]]
      rw [List.find?_cons, List.find?_cons, hcf]
      exact ih

theorem walkFirst_modifySegs (f : Node → Node) (hf : ∀ m, (f m).name = m.name) :
    ∀ (q : List (List Char)) (n : Node),
      walkFirst (modifySegs f n q) q = (walkFirst n q).map f := by
  intro q
  induction q with
  | nil =>
    intro n
    rw [show modifySegs f n [] = f n from by simp [modifySegs]]
    rfl
  | cons s rest ih =>
    intro n
    cases n with
    | mk nm ty cs =>
      simp only [modifySegs, walkFirst, Node.children]
      rw [find?_modifyList f hf s rest cs]
      cases (cs.find? (fun c => c.name == String.mk s)) with
      | none => rfl
      | some c =>
        simp only [Option.map_some]
        exact ih c

theorem walkFirst_last_name (sd : List (List Char)) (lst : List Char) :
    ∀ (n m : Node), walkFirst n (sd ++ [lst]) = some m → m.name = String.mk lst := by
  intro n m h
  rw [walkFirst_append] at h
  cases hw : walkFirst n sd with
  | none => rw [hw] at h; simp at h
  | some p =>
    rw [hw] at h
    simp only [Option.some_bind] at h
    simp only [walkFirst] at h
    cases hf : p.children.find? (fun c => c.name == String.mk lst) with
    | none => rw [hf] at h; simp at h
    | some c =>
      rw [hf] at h
      simp only [walkFirst, Option.some.injEq] at h
      subst h
      have := List.find?_some hf
      exact eq_of_beq this

theorem find?_filter_not (bad : String) :
    ∀ l : List Node,
      (l.filter (fun c => !(c.name == bad))).find? (fun c => c.name == bad) = none := by
  intro l
  induction l with
  | nil => rfl
  | cons c l ih =>
    by_cases hc : c.name == bad
    · rw [List.filter_cons_of_neg (by simp [hc])]
      exact ih
    · rw [List.filter_cons_of_pos (by simp [hc])]
      rw [List.find?_cons_of_neg _ (by simp [hc])]
      exact ih

/-- C10: on a successful resolution of a non-root path, `remove_node`'s
detachment replaces the parent's children by those whose name differs
from the resolved node's name — so siblings sharing that name are all
detached, whichever delete oracle is used. -/
theorem C10_remove_detaches_all_same_name (t : DirTree) (delOk : DirType → String → Bool)
    (path : String) (node par : Node)
    (h1 : t.find_node path = some node) (h2 : path ≠ ".")
    (h3 : walkFirst t.base_node (segsOf path).dropLast = some par) :
    walkFirst ((t.remove_node delOk path).1).base_node (segsOf path).dropLast
      = some (.mk par.name par.type_
          (par.children.filter (fun c => !(c.name == node.name)))) := by
  have hfn : walkFirst t.base_node (segsOf path) = some node := by
    rw [DirTree.find_node, if_neg h2] at h1
    exact h1
  have hres : t.resolve_node_fp path
      = some (node, ((walkFp t.base_node t.base_node.name (segsOf path)).map Prod.snd).getD "") := by
    rw [DirTree.resolve_node_fp, if_neg h2]
    rw [walkFirst_eq_walkFp (segsOf path) t.base_node t.base_node.name] at hfn
    cases hw : walkFp t.base_node t.base_node.name (segsOf path) with
    | none => rw [hw] at hfn; simp at hfn
    | some pr =>
      rw [hw] at hfn
      simp only [Option.map_some', Option.some.injEq] at hfn
      cases pr with
      | mk a b =>
        simp only at hfn
        subst hfn
        rfl
  have hbase : ((t.remove_node delOk path).1).base_node
      = modifySegs (filterNamed node.name) t.base_node (segsOf path).dropLast := by
    rw [DirTree.remove_node, hres]
    dsimp only
    rw [if_neg h2]
    cases node.type_ with
    | Symlink => rfl
    | Dir =>
      dsimp only
      split
      · rfl
      · rfl
    | File =>
      dsimp only
      split
      · rfl
      · rfl
  rw [hbase]
  rw [walkFirst_modifySegs (filterNamed node.name) (fun m => by cases m with | mk a b c => rfl)]
  rw [h3]
  simp only [Option.map_some']
  cases par with
  | mk nm ty cs => rfl

/-- C10 witness: a sibling group with two entries both named `a`;
removing `./a` (which resolves to the first) detaches both. -/
theorem C10_remove_detaches_all_same_name_witness :
    ((DirTree.mk (.mk "." .Dir [.mk "a" .File [], .mk "a" .Dir []])).find_node "./a"
        = some (.mk "a" .File [])) ∧
    ("./a" ≠ ".") ∧
    (walkFirst (Node.mk "." .Dir [.mk "a" .File [], .mk "a" .Dir []]) (segsOf "./a").dropLast
        = some (.mk "." .Dir [.mk "a" .File [], .mk "a" .Dir []])) ∧
    (walkFirst (((DirTree.mk (.mk "." .Dir [.mk "a" .File [], .mk "a" .Dir []])).remove_node
          (fun _ _ => true) "./a").1.base_node) (segsOf "./a").dropLast
        = some (.mk "." .Dir [])) :=
  ⟨rfl, by decide, rfl,
    C10_remove_detaches_all_same_name
      (DirTree.mk (.mk "." .Dir [.mk "a" .File [], .mk "a" .Dir []])) (fun _ _ => true)
      "./a" (.mk "a" .File []) (.mk "." .Dir [.mk "a" .File [], .mk "a" .Dir []])
      rfl (by decide) rfl⟩

/-! ### Names along positions, well-formedness, and C1 -/

theorem mem_of_getElem {α : Type} {l : List α} {n : Nat} {a : α} (h : l[n]? = some a) :
    a ∈ l := by
  obtain ⟨hlt, rfl⟩ := List.getElem?_eq_some.mp h
  exact List.getElem_mem hlt

theorem childrenInv_mem : ∀ cs : List Node, childrenInv cs = true →
    ∀ c ∈ cs, validName c.name = true ∧ Node.inv c = true := by
  intro cs
  induction cs with
  | nil => intro _ c hc; exact absurd hc (List.not_mem_nil c)
  | cons c0 cs ih =>
    intro h c hc
    simp only [childrenInv, Bool.and_eq_true] at h
    rcases List.mem_cons.mp hc with rfl | hc
    · exact ⟨h.1.1, h.1.2⟩
    · exact ih h.2 c hc

theorem childrenNoDot_mem : ∀ cs : List Node, childrenNoDot cs = true →
    ∀ c ∈ cs, noTrailingDot c.name = true ∧ Node.noDotBelow c = true := by
  intro cs
  induction cs with
  | nil => intro _ c hc; exact absurd hc (List.not_mem_nil c)
  | cons c0 cs ih =>
    intro h c hc
    simp only [childrenNoDot, Bool.and_eq_true] at h
    rcases List.mem_cons.mp hc with rfl | hc
    · exact ⟨h.1.1, h.1.2⟩
    · exact ih h.2 c hc

theorem inv_parts : ∀ n : Node, Node.inv n = true →
    allDiff (n.children.map Node.name) = true ∧ childrenInv n.children = true := by
  intro n h
  cases n with
  | mk nm ty cs =>
    simp only [Node.inv, Bool.and_eq_true] at h
    exact ⟨h.1, h.2⟩

theorem noDotBelow_children : ∀ n : Node, Node.noDotBelow n = true →
    childrenNoDot n.children = true := by
  intro n h
  cases n with
  | mk nm ty cs => simpa [Node.noDotBelow] using h

theorem find?_name_of_getElem :
    ∀ cs : List Node, allDiff (cs.map Node.name) = true →
      ∀ (i : Nat) (c : Node), cs[i]? = some c →
        cs.find? (fun c' => c'.name == c.name) = some c := by
  intro cs
  induction cs with
  | nil => intro _ i c h; simp at h
  | cons c0 cs ih =>
    intro hnd i c h
    simp only [List.map_cons, allDiff, Bool.and_eq_true] at hnd
    cases i with
    | zero =>
      have hc : c0 = c := by simpa using h
      subst hc
      rw [List.find?_cons, show (c0.name == c0.name) = true by simp]
    | succ i =>
      have h' : cs[i]? = some c := by simpa using h
      have hcm : c ∈ cs := mem_of_getElem h'
      have hne : (c0.name == c.name) = false := by
        have hnc : ¬ c0.name ∈ cs.map Node.name := by
          intro hm
          have := hnd.1
          simp only [Bool.not_eq_true'] at this
          rw [List.contains_eq_any_beq] at this
          rw [List.any_eq_false] at this
          exact absurd (by simp) (this c0.name hm)
        rw [beq_eq_false_iff_ne]
        intro he
        exact hnc (he ▸ List.mem_map_of_mem Node.name hcm)
      rw [List.find?_cons, hne]
      exact ih hnd.2 i c h'

theorem walk_names : ∀ (q : List Nat) (n : Node) (ns : List String) (m : Node),
    Node.inv n = true → Node.namesAt n q = some ns → n.nodeAt q = some m →
    walkFirst n (ns.map String.data) = some m := by
  intro q
  induction q with
  | nil =>
    intro n ns m hinv hns hat
    simp only [Node.namesAt, Option.some.injEq] at hns
    subst hns
    simp only [Node.nodeAt, Option.some.injEq] at hat
    subst hat
    rfl
  | cons i rest ih =>
    intro n ns m hinv hns hat
    cases n with
    | mk nm ty cs =>
      simp only [Node.namesAt, Node.children] at hns
      simp only [Node.nodeAt, Node.children] at hat
      cases hj : cs[i]? with
      | none => rw [hj] at hns; simp at hns
      | some c =>
        rw [hj] at hns hat
        simp only [Option.map_eq_some'] at hns
        obtain ⟨ns', hns', hcons⟩ := hns
        subst hcons
        simp only [List.map_cons, walkFirst, Node.children]
        rw [String_mk_data c.name]
        obtain ⟨hnd, hcinv⟩ := inv_parts (Node.mk nm ty cs) hinv
        simp only [Node.children] at hnd hcinv
        rw [find?_name_of_getElem cs hnd i c hj]
        exact ih c ns' m (childrenInv_mem cs hcinv c (mem_of_getElem hj)).2 hns' hat

theorem fpAt_eq_namesAt : ∀ (q : List Nat) (n : Node) (pp : Option String),
    Node.fpAt pp n q = (Node.namesAt n q).map
      (fun ns => ns.foldl (fun acc nm => acc ++ "/" ++ nm) (fullPathFrom pp n.name)) := by
  intro q
  induction q with
  | nil => intro n pp; simp [Node.fpAt, Node.namesAt]
  | cons i rest ih =>
    intro n pp
    simp only [Node.fpAt, Node.namesAt]
    cases hj : n.children[i]? with
    | none => simp
    | some c =>
      simp only
      rw [ih c (some (fullPathFrom pp n.name))]
      cases hns : Node.namesAt c rest with
      | none => rfl
      | some ns =>
        simp only [Option.map_some', Option.some.injEq, List.foldl_cons]
        rfl

theorem namesAt_length : ∀ (q : List Nat) (n : Node) (ns : List String),
    Node.namesAt n q = some ns → ns.length = q.length := by
  intro q
  induction q with
  | nil =>
    intro n ns h
    simp only [Node.namesAt, Option.some.injEq] at h
    subst h
    rfl
  | cons i rest ih =>
    intro n ns h
    simp only [Node.namesAt] at h
    cases hj : n.children[i]? with
    | none => rw [hj] at h; simp at h
    | some c =>
      rw [hj] at h
      simp only [Option.map_eq_some'] at h
      obtain ⟨ns', hns', hcons⟩ := h
      subst hcons
      simp [ih c ns' hns']

theorem namesAt_valid : ∀ (q : List Nat) (n : Node) (ns : List String),
    Node.inv n = true → Node.namesAt n q = some ns → ∀ s ∈ ns, validName s = true := by
  intro q
  induction q with
  | nil =>
    intro n ns _ h s hs
    simp only [Node.namesAt, Option.some.injEq] at h
    subst h
    exact absurd hs (List.not_mem_nil s)
  | cons i rest ih =>
    intro n ns hinv h s hs
    simp only [Node.namesAt] at h
    cases hj : n.children[i]? with
    | none => rw [hj] at h; simp at h
    | some c =>
      rw [hj] at h
      simp only [Option.map_eq_some'] at h
      obtain ⟨ns', hns', hcons⟩ := h
      subst hcons
      have hmem := childrenInv_mem n.children (inv_parts n hinv).2 c (mem_of_getElem hj)
      rcases List.mem_cons.mp hs with rfl | hs
      · exact hmem.1
      · exact ih c ns' hmem.2 hns' s hs

theorem namesAt_noDot : ∀ (q : List Nat) (n : Node) (ns : List String),
    Node.noDotBelow n = true → Node.namesAt n q = some ns →
    ∀ s ∈ ns, noTrailingDot s = true := by
  intro q
  induction q with
  | nil =>
    intro n ns _ h s hs
    simp only [Node.namesAt, Option.some.injEq] at h
    subst h
    exact absurd hs (List.not_mem_nil s)
  | cons i rest ih =>
    intro n ns hdot h s hs
    simp only [Node.namesAt] at h
    cases hj : n.children[i]? with
    | none => rw [hj] at h; simp at h
    | some c =>
      rw [hj] at h
      simp only [Option.map_eq_some'] at h
      obtain ⟨ns', hns', hcons⟩ := h
      subst hcons
      have hmem := childrenNoDot_mem n.children (noDotBelow_children n hdot) c (mem_of_getElem hj)
      rcases List.mem_cons.mp hs with rfl | hs
      · exact hmem.1
      · exact ih c ns' hmem.2 hns' s hs

theorem validName_no_slash (s : String) (h : validName s = true) : '/' ∉ s.data := by
  simp only [validName, Bool.and_eq_true] at h
  intro hm
  have := h.2
  simp only [Bool.not_eq_true'] at this
  rw [List.contains_eq_any_beq, List.any_eq_false] at this
  exact absurd (by simp) (this '/' hm)

theorem noTrailingDot_getLast (s : String) (h : noTrailingDot s = true) :
    s.data.getLast? ≠ some '.' := by
  simp only [noTrailingDot] at h
  intro he
  rw [he] at h
  simp at h

theorem hasDotSlash_joinSegs :
    ∀ L : List (List Char), (∀ x ∈ L, '/' ∉ x) → (∀ x ∈ L, x.getLast? ≠ some '.') →
      hasDotSlash (joinSegs L) = false
| [] => by intro _ _; rfl
| [s] => by
  intro hsf _
  exact hasDotSlash_no_slash s (hsf s (List.mem_singleton_self s))
| s :: s2 :: L => by
  intro hsf hld
  rw [show joinSegs (s :: s2 :: L) = s ++ '/' :: joinSegs (s2 :: L) from rfl]
  refine (hasDotSlash_seg_append s (hsf s (List.mem_cons_self _ _))
    (hld s (List.mem_cons_self _ _)) _ ?_).2
  exact hasDotSlash_joinSegs (s2 :: L)
    (fun x hx => hsf x (List.mem_cons_of_mem s hx))
    (fun x hx => hld x (List.mem_cons_of_mem s hx))

theorem foldl_path_data : ∀ (ns : List String) (a : String),
    (List.foldl (fun acc nm => acc ++ "/" ++ nm) a ns).data
      = a.data ++ (ns.map (fun nm => '/' :: nm.data)).flatten := by
  intro ns
  induction ns with
  | nil => intro a; simp
  | cons nm ns ih =>
    intro a
    rw [List.foldl_cons, ih, List.map_cons, List.flatten_cons]
    rw [String.data_append, String.data_append]
    simp

theorem flatten_slash_join :
    ∀ ns : List String, ns ≠ [] →
      (ns.map (fun nm => '/' :: nm.data)).flatten = '/' :: joinSegs (ns.map String.data)
| [] => by intro h; exact absurd rfl h
| [nm] => by intro _; simp [joinSegs]
| nm :: nm2 :: ns => by
  intro _
  rw [List.map_cons, List.flatten_cons,
    flatten_slash_join (nm2 :: ns) (List.cons_ne_nil _ _)]
  rw [show (nm :: nm2 :: ns).map String.data
      = nm.data :: (nm2 :: ns).map String.data from rfl]
  rw [show joinSegs (nm.data :: (nm2 :: ns).map String.data)
      = nm.data ++ '/' :: joinSegs ((nm2 :: ns).map String.data) from by
    cases h : (nm2 :: ns).map String.data with
    | nil => simp at h
    | cons a as => rfl]
  simp

/-- C1 (amended): on well-formed trees, for every reachable node whose
tree has no name ending in `'.'`, `find_node` inverts `full_path`. -/
theorem C1_lookup_inverts_full_path (t : DirTree) (q : List Nat) (m : Node) (P : String)
    (hwf : t.wf = true) (hdot : t.base_node.noDotBelow = true)
    (hat : t.base_node.nodeAt q = some m) (hfp : Node.fpAt none t.base_node q = some P) :
    t.find_node P = some m := by
  have hwf2 : (t.base_node.name == ".") = true ∧ Node.inv t.base_node = true := by
    simpa [DirTree.wf, Bool.and_eq_true] using hwf
  have hroot : t.base_node.name = "." := eq_of_beq hwf2.1
  have hinv : Node.inv t.base_node = true := hwf2.2
  cases q with
  | nil =>
    simp only [Node.nodeAt, Option.some.injEq] at hat
    simp only [Node.fpAt, Option.some.injEq] at hfp
    have hP : P = "." := by rw [← hfp]; simp [fullPathFrom, hroot]
    rw [DirTree.find_node, if_pos hP, hat]
  | cons i rest =>
    rw [fpAt_eq_namesAt] at hfp
    cases hns : Node.namesAt t.base_node (i :: rest) with
    | none => rw [hns] at hfp; simp at hfp
    | some ns =>
      rw [hns] at hfp
      simp only [Option.map_some', Option.some.injEq] at hfp
      have hlen := namesAt_length _ _ _ hns
      have hnsne : ns ≠ [] := by intro h; subst h; simp at hlen
      have hval := namesAt_valid _ _ _ hinv hns
      have hnod := namesAt_noDot _ _ _ hdot hns
      have hsf : ∀ x ∈ ns.map String.data, '/' ∉ x := by
        intro x hx
        obtain ⟨s, hs, rfl⟩ := List.mem_map.mp hx
        exact validName_no_slash s (hval s hs)
      have hld : ∀ x ∈ ns.map String.data, x.getLast? ≠ some '.' := by
        intro x hx
        obtain ⟨s, hs, rfl⟩ := List.mem_map.mp hx
        exact noTrailingDot_getLast s (hnod s hs)
      have hPdata : P.data = '.' :: '/' :: joinSegs (ns.map String.data) := by
        rw [← hfp, foldl_path_data, flatten_slash_join ns hnsne]
        simp [fullPathFrom, hroot]
      have hPne : P ≠ "." := by
        intro h
        rw [h] at hPdata
        simp at hPdata
      rw [DirTree.find_node, if_neg hPne]
      have hsegs : segsOf P = ns.map String.data := by
        rw [segsOf, hPdata]
        rw [show removeDotSlash ('.' :: '/' :: joinSegs (ns.map String.data))
            = removeDotSlash (joinSegs (ns.map String.data)) from rfl]
        rw [removeDotSlash_id _ (hasDotSlash_joinSegs _ hsf hld)]
        exact splitSlash_joinSegs _ (fun h => hnsne (List.map_eq_nil_iff.mp h)) hsf
      rw [hsegs]
      exact walk_names (i :: rest) t.base_node ns m hinv hns hat

/-- C1 (counterexample): the scan-reachable tree `.` → `a.` → `b` is
well-formed, the node at position `[0,0]` has full path `"./a./b"`, yet
`find_node "./a./b"` returns nothing — `replace("./", "")` turns the
path into `"ab"` because the directory name `a.` ends with a dot. -/
theorem C1_counterexample :
    exTreeDot = ((((DirTree.new ".").open_dir "." (.ok [("a.", DirType.Dir)])).1.open_dir
        "./a." (.ok [("b", DirType.File)])).1) ∧
    exTreeDot.wf = true ∧
    exTreeDot.base_node.noDotBelow = false ∧
    exTreeDot.base_node.nodeAt [0, 0] = some (.mk "b" .File []) ∧
    Node.fpAt none exTreeDot.base_node [0, 0] = some "./a./b" ∧
    exTreeDot.find_node "./a./b" = none :=
  ⟨rfl, rfl, rfl, rfl, rfl, rfl⟩

/-- C1 witness: in the tree `.` → { `a` → { `c` }, `b` }, the node at
`[0, 0]` has full path `"./a/c"` and `find_node` returns exactly it. -/
theorem C1_lookup_inverts_full_path_witness :
    (exTree.wf = true) ∧
    (exTree.base_node.noDotBelow = true) ∧
    (exTree.base_node.nodeAt [0, 0] = some (.mk "c" .File [])) ∧
    (Node.fpAt none exTree.base_node [0, 0] = some "./a/c") ∧
    (exTree.find_node "./a/c" = some (.mk "c" .File [])) :=
  ⟨rfl, rfl, rfl, rfl,
    C1_lookup_inverts_full_path exTree [0, 0] (.mk "c" .File []) "./a/c" rfl rfl rfl rfl⟩

/-! ### Machinery for C2: removal erases the subtree from both views -/

theorem getElem?_of_mem {α : Type} {l : List α} {a : α} (h : a ∈ l) :
    ∃ n : Nat, l[n]? = some a := by
  obtain ⟨n, hn, he⟩ := List.getElem_of_mem h
  exact ⟨n, by rw [List.getElem?_eq_getElem hn, he]⟩

mutual
theorem rows_fp_pos (S : List String) (base : List Nat) (pp : Option String)
    (depth : Nat) (il psel : Bool) :
    ∀ n : Node, ∀ x ∈ Node.rows S base pp depth il psel n,
      ∃ q, posOf x = base ++ q ∧ Node.fpAt pp n q = some (fpOf x)
| .mk nm ty cs => by
  intro x hx
  simp only [Node.rows, List.mem_cons] at hx
  rcases hx with rfl | hx
  · exact ⟨[], by simp [posOf], rfl⟩
  · obtain ⟨k, c, q, hk, hpos, hfp⟩ := rowsList_fp_pos S base _ _ _ 0 cs.length cs x hx
    refine ⟨k :: q, by simpa using hpos, ?_⟩
    simp only [Node.fpAt, Node.children, Node.name]
    rw [hk]
    exact hfp

theorem rowsList_fp_pos (S : List String) (base : List Nat) (pp : Option String)
    (depth : Nat) (psel : Bool) (i len : Nat) :
    ∀ cs : List Node, ∀ x ∈ rowsList S base pp depth psel i len cs,
      ∃ k c q, cs[k]? = some c ∧ posOf x = base ++ (i + k) :: q ∧
        Node.fpAt pp c q = some (fpOf x)
| [] => by intro x hx; simp [rowsList] at hx
| c :: cs => by
  intro x hx
  simp only [rowsList, List.mem_append] at hx
  rcases hx with hx | hx
  · obtain ⟨q, hpos, hfp⟩ := rows_fp_pos S (base ++ [i]) _ _ _ _ c x hx
    exact ⟨0, c, q, by simp, by simpa using hpos, hfp⟩
  · obtain ⟨k, c', q, hk, hpos, hfp⟩ := rowsList_fp_pos S base _ _ _ (i + 1) len cs x hx
    refine ⟨k + 1, c', q, by simpa using hk, ?_, hfp⟩
    rw [show i + (k + 1) = i + 1 + k by omega]
    exact hpos
end

theorem to_array_mem (t : DirTree) (s : String) (h : s ∈ t.to_array) :
    ∃ q m, t.base_node.nodeAt q = some m ∧ Node.fpAt none t.base_node q = some s := by
  rw [show t.to_array = (t.rows []).map (fun x => x.2.1) from
    to_array_eq_rows [] [] none 0 false false t.base_node] at h
  obtain ⟨x, hx, rfl⟩ := List.mem_map.mp h
  obtain ⟨q, hpos, hfp⟩ := rows_fp_pos [] [] none 0 false false t.base_node x hx
  obtain ⟨q', m, hpos', hat⟩ := rows_pos_valid [] [] none 0 false false t.base_node x hx
  simp only [List.nil_append] at hpos hpos'
  rw [hpos] at hpos'
  subst hpos'
  exact ⟨q, m, hat, hfp⟩

theorem walkFp_to_names :
    ∀ (segs : List (List Char)) (n : Node) (fp0 : String) (node : Node) (FP : String),
      walkFp n fp0 segs = some (node, FP) →
      ∃ (q : List Nat) (ns : List String), n.nodeAt q = some node ∧
        Node.namesAt n q = some ns ∧ ns.map String.data = segs ∧
        FP = ns.foldl (fun acc nm => acc ++ "/" ++ nm) fp0 := by
  intro segs
  induction segs with
  | nil =>
    intro n fp0 node FP h
    simp only [walkFp, Option.some.injEq, Prod.mk.injEq] at h
    obtain ⟨rfl, rfl⟩ := h
    exact ⟨[], [], rfl, rfl, rfl, rfl⟩
  | cons s rest ih =>
    intro n fp0 node FP h
    simp only [walkFp] at h
    cases hf : n.children.find? (fun c => c.name == String.mk s) with
    | none => rw [hf] at h; simp at h
    | some c =>
      rw [hf] at h
      simp only at h
      obtain ⟨q, ns, hat, hns, hmap, hfold⟩ := ih c (fp0 ++ "/" ++ c.name) node FP h
      have hcm : c ∈ n.children := List.mem_of_find?_eq_some hf
      obtain ⟨i, hi⟩ := getElem?_of_mem hcm
      have hbeq := List.find?_some hf
      have hcname : c.name = String.mk s := eq_of_beq (by simpa using hbeq)
      refine ⟨i :: q, c.name :: ns, ?_, ?_, ?_, ?_⟩
      · cases n with
        | mk nm ty cs =>
          simp only [Node.nodeAt, Node.children] at hi ⊢
          rw [hi]
          exact hat
      · cases n with
        | mk nm ty cs =>
          simp only [Node.namesAt, Node.children] at hi ⊢
          simp only [hi, hns, Option.map_some']
      · rw [List.map_cons, hmap, hcname]
      · rw [List.foldl_cons]
        exact hfold

theorem namesAt_split :
    ∀ (ns1 : List String) (q : List Nat) (n : Node) (ns2 : List String),
      Node.namesAt n q = some (ns1 ++ ns2) →
      ∃ q1 mid, Node.namesAt n q1 = some ns1 ∧ n.nodeAt q1 = some mid := by
  intro ns1
  induction ns1 with
  | nil => intro q n ns2 _; exact ⟨[], n, rfl, rfl⟩
  | cons nm ns1 ih =>
    intro q n ns2 h
    cases q with
    | nil =>
      simp only [Node.namesAt, Option.some.injEq] at h
      exact absurd h (by simp)
    | cons i rest =>
      simp only [Node.namesAt] at h
      cases hj : n.children[i]? with
      | none => rw [hj] at h; simp at h
      | some c =>
        rw [hj] at h
        simp only [Option.map_eq_some'] at h
        obtain ⟨ns', hns', hcons⟩ := h
        rw [List.cons_append] at hcons
        injection hcons with h1 h2
        subst h1
        subst h2
        obtain ⟨q1, mid, hq1, hmid⟩ := ih rest c ns2 hns'
        refine ⟨i :: q1, mid, ?_, ?_⟩
        · cases n with
          | mk nm2 ty cs =>
            simp only [Node.namesAt, Node.children] at hj ⊢
            rw [hj]
            dsimp only
            rw [hq1]
            rfl
        · cases n with
          | mk nm2 ty cs =>
            simp only [Node.nodeAt, Node.children] at hj ⊢
            rw [hj]
            exact hmid

theorem allDiff_sublist : ∀ {l1 l2 : List String}, List.Sublist l1 l2 → allDiff l2 = true →
    allDiff l1 = true := by
  intro l1 l2 hsub
  induction hsub with
  | slnil => intro h; exact h
  | cons a hs ih =>
    intro h
    simp only [allDiff, Bool.and_eq_true] at h
    exact ih h.2
  | cons₂ a hs ih =>
    rename_i l1' l2'
    intro h
    simp only [allDiff, Bool.and_eq_true] at h ⊢
    refine ⟨?_, ih h.2⟩
    simp only [Bool.not_eq_true'] at h ⊢
    rw [List.contains_eq_any_beq, List.any_eq_false]
    intro x hx
    rw [List.contains_eq_any_beq, List.any_eq_false] at h
    exact h.1 x (hs.subset hx)

theorem childrenInv_of_mem : ∀ cs : List Node,
    (∀ c ∈ cs, validName c.name = true ∧ Node.inv c = true) → childrenInv cs = true := by
  intro cs
  induction cs with
  | nil => intro _; rfl
  | cons c cs ih =>
    intro h
    simp only [childrenInv, Bool.and_eq_true]
    exact ⟨⟨(h c (List.mem_cons_self c cs)).1, (h c (List.mem_cons_self c cs)).2⟩,
      ih (fun c' hc' => h c' (List.mem_cons_of_mem c hc'))⟩

theorem inv_filterNamed (bad : String) (n : Node) (h : Node.inv n = true) :
    Node.inv (filterNamed bad n) = true := by
  cases n with
  | mk nm ty cs =>
    obtain ⟨hnd, hcinv⟩ := inv_parts (Node.mk nm ty cs) h
    simp only [Node.children] at hnd hcinv
    simp only [filterNamed, Node.inv, Bool.and_eq_true]
    constructor
    · exact allDiff_sublist ((List.filter_sublist cs).map Node.name) hnd
    · refine childrenInv_of_mem _ (fun c hc => ?_)
      exact childrenInv_mem cs hcinv c (List.mem_of_mem_filter hc)

theorem modifyList_map_name (f : Node → Node) (hf : ∀ m, (f m).name = m.name)
    (s : List Char) (rest : List (List Char)) :
    ∀ cs : List Node, (modifyList f s rest cs).map Node.name = cs.map Node.name := by
  intro cs
  induction cs with
  | nil => rfl
  | cons c cs ih =>
    by_cases hc : (c.name == String.mk s) = true
    · rw [show modifyList f s rest (c :: cs) = modifySegs f c rest :: cs from by
        simp [modifyList, hc]]
      rw [List.map_cons, List.map_cons, modifySegs_name f hf rest c]
    · rw [show modifyList f s rest (c :: cs) = c :: modifyList f s rest cs from by
        simp only [modifyList]; rw [if_neg hc]]
      rw [List.map_cons, List.map_cons, ih]

theorem modifyList_mem_cases (f : Node → Node) (s : List Char) (rest : List (List Char)) :
    ∀ cs : List Node, ∀ x ∈ modifyList f s rest cs,
      x ∈ cs ∨ ∃ c ∈ cs, x = modifySegs f c rest := by
  intro cs
  induction cs with
  | nil => intro x hx; simp [modifyList] at hx
  | cons c cs ih =>
    intro x hx
    by_cases hc : (c.name == String.mk s) = true
    · rw [show modifyList f s rest (c :: cs) = modifySegs f c rest :: cs from by
        simp [modifyList, hc]] at hx
      rcases List.mem_cons.mp hx with rfl | hx
      · exact Or.inr ⟨c, List.mem_cons_self c cs, rfl⟩
      · exact Or.inl (List.mem_cons_of_mem c hx)
    · rw [show modifyList f s rest (c :: cs) = c :: modifyList f s rest cs from by
        simp only [modifyList]; rw [if_neg hc]] at hx
      rcases List.mem_cons.mp hx with rfl | hx
      · exact Or.inl (List.mem_cons_self x cs)
      · rcases ih x hx with h | ⟨c', hc', he⟩
        · exact Or.inl (List.mem_cons_of_mem c h)
        · exact Or.inr ⟨c', List.mem_cons_of_mem c hc', he⟩

theorem inv_modifySegs (f : Node → Node) (hf : ∀ m, (f m).name = m.name)
    (hfi : ∀ m, Node.inv m = true → Node.inv (f m) = true) :
    ∀ (q : List (List Char)) (n : Node), Node.inv n = true →
      Node.inv (modifySegs f n q) = true := by
  intro q
  induction q with
  | nil =>
    intro n h
    rw [show modifySegs f n [] = f n from by simp [modifySegs]]
    exact hfi n h
  | cons s rest ih =>
    intro n h
    cases n with
    | mk nm ty cs =>
      obtain ⟨hnd, hcinv⟩ := inv_parts (Node.mk nm ty cs) h
      simp only [Node.children] at hnd hcinv
      rw [show modifySegs f (Node.mk nm ty cs) (s :: rest)
          = Node.mk nm ty (modifyList f s rest cs) from by simp [modifySegs]]
      simp only [Node.inv, Bool.and_eq_true]
      constructor
      · rw [modifyList_map_name f hf s rest cs]
        exact hnd
      · refine childrenInv_of_mem _ (fun x hx => ?_)
        rcases modifyList_mem_cases f s rest cs x hx with hmem | ⟨c, hc, rfl⟩
        · exact childrenInv_mem cs hcinv x hmem
        · have hc2 := childrenInv_mem cs hcinv c hc
          refine ⟨?_, ih c hc2.2⟩
          rw [modifySegs_name f hf rest c]
          exact hc2.1

theorem fp_shape (n : Node) (hroot : n.name = ".") (q : List Nat) (P : String)
    (hq : q ≠ []) (hfp : Node.fpAt none n q = some P) :
    ∃ ns, Node.namesAt n q = some ns ∧ ns ≠ [] ∧
      P.data = '.' :: '/' :: joinSegs (ns.map String.data) := by
  rw [fpAt_eq_namesAt] at hfp
  cases hns : Node.namesAt n q with
  | none => rw [hns] at hfp; simp at hfp
  | some ns =>
    rw [hns] at hfp
    simp only [Option.map_some', Option.some.injEq] at hfp
    have hlen := namesAt_length _ _ _ hns
    have hnsne : ns ≠ [] := by
      intro h
      subst h
      exact hq (List.length_eq_zero.mp hlen.symm)
    refine ⟨ns, rfl, hnsne, ?_⟩
    rw [← hfp, foldl_path_data, flatten_slash_join ns hnsne]
    simp [fullPathFrom, hroot]

/-- C2 (amended): on a well-formed tree, when `remove_node` succeeds on
a non-root path that is the resolved node's own full path, afterwards
the path no longer resolves and `flatten_paths` contains neither the
path nor any path extending it with `"/"`. -/
theorem C2_remove_erases_subtree (t : DirTree) (delOk : DirType → String → Bool)
    (path : String) (node : Node) (t2 : DirTree)
    (hwf : t.wf = true)
    (hres : t.resolve_node_fp path = some (node, path))
    (hroot : path ≠ ".")
    (hrem : t.remove_node delOk path = (t2, Outcome.ok)) :
    t2.find_node path = none ∧
    ∀ s ∈ t2.to_array, s ≠ path ∧ ¬ ((path ++ "/").data <+: s.data) := by
  have hfname : ∀ m : Node, (filterNamed node.name m).name = m.name := by
    intro m; cases m with | mk a b c => rfl
  have hwf2 : (t.base_node.name == ".") = true ∧ Node.inv t.base_node = true := by
    simpa [DirTree.wf, Bool.and_eq_true] using hwf
  have hrootname : t.base_node.name = "." := eq_of_beq hwf2.1
  have hinv : Node.inv t.base_node = true := hwf2.2
  -- the tree after removal
  have ht2base : t2.base_node
      = modifySegs (filterNamed node.name) t.base_node (segsOf path).dropLast := by
    rw [DirTree.remove_node, hres] at hrem
    dsimp only at hrem
    rw [if_neg hroot] at hrem
    cases htype : node.type_ with
    | Symlink =>
      rw [htype] at hrem
      exact absurd (congrArg Prod.snd hrem) (by simp)
    | Dir =>
      rw [htype] at hrem
      by_cases hd : delOk DirType.Dir path = true
      · rw [if_pos hd] at hrem
        have := congrArg Prod.fst hrem
        simp only at this
        rw [← this]
      · rw [if_neg hd] at hrem
        exact absurd (congrArg Prod.snd hrem) (by simp)
    | File =>
      rw [htype] at hrem
      by_cases hd : delOk DirType.File path = true
      · rw [if_pos hd] at hrem
        have := congrArg Prod.fst hrem
        simp only at this
        rw [← this]
      · rw [if_neg hd] at hrem
        exact absurd (congrArg Prod.snd hrem) (by simp)
  -- the successful walk in the original tree
  have hwfp : walkFp t.base_node t.base_node.name (segsOf path) = some (node, path) := by
    rw [DirTree.resolve_node_fp, if_neg hroot] at hres
    exact hres
  have hwalk : walkFirst t.base_node (segsOf path) = some node := by
    rw [walkFirst_eq_walkFp _ _ t.base_node.name, hwfp]
    rfl
  have hsne : segsOf path ≠ [] := splitSlash_ne_nil (removeDotSlash path.data)
  have hsplit : (segsOf path).dropLast ++ [(segsOf path).getLast hsne] = segsOf path :=
    List.dropLast_append_getLast hsne
  have hname : node.name = String.mk ((segsOf path).getLast hsne) := by
    refine walkFirst_last_name (segsOf path).dropLast _ t.base_node node ?_
    rw [hsplit]
    exact hwalk
  have hwalk2 : walkFirst t.base_node ((segsOf path).dropLast
      ++ [(segsOf path).getLast hsne]) = some node := by rw [hsplit]; exact hwalk
  rw [walkFirst_append] at hwalk2
  have hE : walkFirst t2.base_node (segsOf path) = none := by
    have hre : walkFirst t2.base_node (segsOf path)
        = walkFirst t2.base_node ((segsOf path).dropLast
            ++ [(segsOf path).getLast hsne]) := by rw [hsplit]
    rw [hre, walkFirst_append, ht2base,
      walkFirst_modifySegs (filterNamed node.name) hfname]
    cases hpar : walkFirst t.base_node (segsOf path).dropLast with
    | none => rfl
    | some par =>
      simp only [Option.map_some', Option.some_bind]
      cases par with
      | mk pnm pty pcs =>
        simp only [walkFirst, filterNamed, Node.children]
        rw [← hname, find?_filter_not node.name pcs]
  have hfind : t2.find_node path = none := by
    rw [DirTree.find_node, if_neg hroot]
    exact hE
  -- wf of the new tree
  have ht2name : t2.base_node.name = "." := by
    rw [ht2base, modifySegs_name _ hfname]
    exact hrootname
  have ht2inv : Node.inv t2.base_node = true := by
    rw [ht2base]
    exact inv_modifySegs _ hfname (inv_filterNamed node.name) _ _ hinv
  -- the canonical shape of the removed path
  rw [hrootname] at hwfp
  obtain ⟨qn, nsn, hatn, hnsn, hmapn, hfoldn⟩ :=
    walkFp_to_names (segsOf path) t.base_node "." node path hwfp
  have hnsnne : nsn ≠ [] := by
    intro h
    subst h
    exact hsne hmapn.symm
  have hpathdata : path.data = '.' :: '/' :: joinSegs (segsOf path) := by
    conv_lhs => rw [hfoldn]
    rw [foldl_path_data, flatten_slash_join nsn hnsnne, hmapn]
    rfl
  have hsegsf : ∀ x ∈ segsOf path, '/' ∉ x := fun x hx =>
    splitSlash_sfree (removeDotSlash path.data) x hx
  refine ⟨hfind, ?_⟩
  intro s hs
  obtain ⟨q, m, hatq, hfpq⟩ := to_array_mem t2 s hs
  cases q with
  | nil =>
    simp only [Node.fpAt, Option.some.injEq] at hfpq
    have hsdot : s = "." := by
      rw [← hfpq]
      simp [fullPathFrom, ht2name]
    subst hsdot
    constructor
    · intro he
      exact hroot he.symm
    · intro hpre
      have hlb := hpre.length_le
      rw [String.data_append, hpathdata] at hlb
      simp [String.data] at hlb
  | cons i rest =>
    obtain ⟨ns, hns, hnsne, hsdata⟩ :=
      fp_shape t2.base_node ht2name (i :: rest) s (by simp) hfpq
    have hnssf : ∀ x ∈ ns.map String.data, '/' ∉ x := by
      intro x hx
      obtain ⟨nm, hnm, rfl⟩ := List.mem_map.mp hx
      exact validName_no_slash nm (namesAt_valid _ _ _ ht2inv hns nm hnm)
    constructor
    · intro he
      rw [he, hpathdata] at hsdata
      have hjoins : joinSegs (segsOf path) = joinSegs (ns.map String.data) := by
        injection hsdata with h1 h2
        injection h2
      have hmapeq : ns.map String.data = segsOf path := by
        rw [← splitSlash_joinSegs (ns.map String.data)
            (fun h => hnsne (List.map_eq_nil_iff.mp h)) hnssf, ← hjoins,
          splitSlash_joinSegs (segsOf path) hsne hsegsf]
      have hwsucc := walk_names (i :: rest) t2.base_node ns m ht2inv hns hatq
      rw [hmapeq, hE] at hwsucc
      exact absurd hwsucc (by simp)
    · intro hpre
      obtain ⟨tl, htl⟩ := hpre
      rw [String.data_append, hpathdata, hsdata] at htl
      simp only [List.append_assoc, List.cons_append, List.nil_append] at htl
      have hjtl : joinSegs (segsOf path) ++ '/' :: tl = joinSegs (ns.map String.data) := by
        simpa using htl
      have hmapeq : ns.map String.data = segsOf path ++ splitSlash tl := by
        rw [← splitSlash_joinSegs (ns.map String.data)
            (fun h => hnsne (List.map_eq_nil_iff.mp h)) hnssf, ← hjtl]
        exact splitSlash_join_append (segsOf path) hsne hsegsf tl
      have hlen2 : ns.length = (segsOf path).length + (splitSlash tl).length := by
        have := congrArg List.length hmapeq
        simpa using this
      have htakemap : (ns.take (segsOf path).length).map String.data = segsOf path := by
        rw [List.map_take, hmapeq, List.take_left]
      have hsplitns : Node.namesAt t2.base_node (i :: rest)
          = some (ns.take (segsOf path).length ++ ns.drop (segsOf path).length) := by
        rw [List.take_append_drop]
        exact hns
      obtain ⟨q1, mid, hq1names, hq1at⟩ :=
        namesAt_split (ns.take (segsOf path).length) (i :: rest) t2.base_node
          (ns.drop (segsOf path).length) hsplitns
      have hwsucc := walk_names q1 t2.base_node (ns.take (segsOf path).length) mid
        ht2inv hq1names hq1at
      rw [htakemap, hE] at hwsucc
      exact absurd hwsucc (by simp)

/-- C2 (counterexample): in the scan-reachable tree with entries `x.`
(containing `y`) and `xy`, removing the resolvable path `"./x./y"`
succeeds — but it actually deletes `./xy` (the mangled resolution), and
`flatten_paths` afterwards still contains `"./x./y"` itself. -/
theorem C2_counterexample :
    exTreeDots.wf = true ∧
    exTreeDots.remove_node (fun _ _ => true) "./x./y"
      = (⟨.mk "." .Dir [.mk "x." .Dir [.mk "y" .File []]]⟩, .ok) ∧
    (DirTree.mk (.mk "." .Dir [.mk "x." .Dir [.mk "y" .File []]])).to_array
      = [".", "./x.", "./x./y"] ∧
    "./x./y" ∈ (DirTree.mk (.mk "." .Dir [.mk "x." .Dir [.mk "y" .File []]])).to_array :=
  ⟨rfl, rfl, rfl, by decide⟩

/-- C2 witness: removing `./b` from the tree `.` → { `a` → { `c` }, `b` }
succeeds, and afterwards neither `./b` nor any `./b/`-extension resolves
or appears in `flatten_paths`. -/
theorem C2_remove_erases_subtree_witness :
    (exTree.wf = true) ∧
    (exTree.resolve_node_fp "./b" = some (.mk "b" .File [], "./b")) ∧
    ("./b" ≠ ".") ∧
    (exTree.remove_node (fun _ _ => true) "./b"
      = (⟨.mk "." .Dir [.mk "a" .Dir [.mk "c" .File []]]⟩, Outcome.ok)) ∧
    ((DirTree.mk (.mk "." .Dir [.mk "a" .Dir [.mk "c" .File []]])).find_node "./b" = none ∧
      ∀ s ∈ (DirTree.mk (.mk "." .Dir [.mk "a" .Dir [.mk "c" .File []]])).to_array,
        s ≠ "./b" ∧ ¬ (("./b" ++ "/").data <+: s.data)) :=
  ⟨rfl, rfl, by decide, rfl,
    C2_remove_erases_subtree exTree (fun _ _ => true) "./b" (.mk "b" .File [])
      (⟨.mk "." .Dir [.mk "a" .Dir [.mk "c" .File []]]⟩) rfl rfl (by decide) rfl⟩

/-! ### `wf` is an invariant of construction, scanning and removal -/

theorem wf_new : (DirTree.new ".").wf = true := rfl

theorem modifyList_mem_find (f : Node → Node) (s : List Char) (rest : List (List Char)) :
    ∀ cs : List Node, ∀ x ∈ modifyList f s rest cs,
      x ∈ cs ∨ ∃ c ∈ cs, cs.find? (fun c' => c'.name == String.mk s) = some c ∧
        x = modifySegs f c rest := by
  intro cs
  induction cs with
  | nil => intro x hx; simp [modifyList] at hx
  | cons c cs ih =>
    intro x hx
    by_cases hc : (c.name == String.mk s) = true
    · rw [show modifyList f s rest (c :: cs) = modifySegs f c rest :: cs from by
        simp [modifyList, hc]] at hx
      rcases List.mem_cons.mp hx with rfl | hx
      · refine Or.inr ⟨c, List.mem_cons_self c cs, ?_, rfl⟩
        rw [List.find?_cons, hc]
      · exact Or.inl (List.mem_cons_of_mem c hx)
    · have hcf : (c.name == String.mk s) = false := by simpa using hc
      rw [show modifyList f s rest (c :: cs) = c :: modifyList f s rest cs from by
        simp only [modifyList]; rw [if_neg hc]] at hx
      rcases List.mem_cons.mp hx with rfl | hx
      · exact Or.inl (List.mem_cons_self x cs)
      · rcases ih x hx with h | ⟨c', hc', hfind, he⟩
        · exact Or.inl (List.mem_cons_of_mem c h)
        · refine Or.inr ⟨c', List.mem_cons_of_mem c hc', ?_, he⟩
          rw [List.find?_cons, hcf]
          exact hfind

theorem inv_modifySegs_cond (f : Node → Node) (hf : ∀ m, (f m).name = m.name) :
    ∀ (q : List (List Char)) (n : Node), Node.inv n = true →
      (∀ m, Node.inv m = true → walkFirst n q = some m → Node.inv (f m) = true) →
      Node.inv (modifySegs f n q) = true := by
  intro q
  induction q with
  | nil =>
    intro n h hcond
    rw [show modifySegs f n [] = f n from by simp [modifySegs]]
    exact hcond n h rfl
  | cons s rest ih =>
    intro n h hcond
    cases n with
    | mk nm ty cs =>
      obtain ⟨hnd, hcinv⟩ := inv_parts (Node.mk nm ty cs) h
      simp only [Node.children] at hnd hcinv
      rw [show modifySegs f (Node.mk nm ty cs) (s :: rest)
          = Node.mk nm ty (modifyList f s rest cs) from by simp [modifySegs]]
      simp only [Node.inv, Bool.and_eq_true]
      refine ⟨by rw [modifyList_map_name f hf s rest cs]; exact hnd, ?_⟩
      refine childrenInv_of_mem _ (fun x hx => ?_)
      rcases modifyList_mem_find f s rest cs x hx with hmem | ⟨c, hc, hfind, rfl⟩
      · exact childrenInv_mem cs hcinv x hmem
      · have hc2 := childrenInv_mem cs hcinv c hc
        refine ⟨by rw [modifySegs_name f hf rest c]; exact hc2.1, ?_⟩
        refine ih c hc2.2 (fun m hm hw => hcond m hm ?_)
        simp only [walkFirst, Node.children]
        rw [hfind]
        exact hw

theorem wf_remove (t : DirTree) (delOk : DirType → String → Bool) (path : String)
    (h : t.wf = true) : ((t.remove_node delOk path).1).wf = true := by
  have hwf2 : (t.base_node.name == ".") = true ∧ Node.inv t.base_node = true := by
    simpa [DirTree.wf, Bool.and_eq_true] using h
  rw [DirTree.remove_node]
  cases hres : t.resolve_node_fp path with
  | none => exact h
  | some pr =>
    cases pr with
    | mk node fp =>
      dsimp only
      by_cases hp : path = "."
      · rw [if_pos hp]; exact h
      · rw [if_neg hp]
        have hfname : ∀ m : Node, (filterNamed node.name m).name = m.name := by
          intro m; cases m with | mk a b c => rfl
        have hmod : (DirTree.mk (modifySegs (filterNamed node.name) t.base_node
            (segsOf path).dropLast)).wf = true := by
          simp only [DirTree.wf, Bool.and_eq_true]
          constructor
          · rw [modifySegs_name _ hfname]
            exact hwf2.1
          · exact inv_modifySegs _ hfname (inv_filterNamed node.name) _ _ hwf2.2
        cases node.type_ with
        | Symlink => exact hmod
        | Dir =>
          dsimp only
          split
          · exact hmod
          · exact hmod
        | File =>
          dsimp only
          split
          · exact hmod
          · exact hmod

theorem inv_scan_empty (entries : List (String × DirType)) (m : Node)
    (hm : m.children = []) (hval : ∀ e ∈ entries, validName e.1 = true)
    (hdiff : allDiff (entries.map Prod.fst) = true) :
    Node.inv (Node.scan_dir entries m) = true := by
  cases m with
  | mk nm ty cs =>
    simp only [Node.children] at hm
    subst hm
    simp only [Node.scan_dir, List.nil_append, Node.inv, Bool.and_eq_true]
    constructor
    · rw [List.map_map]
      have : (Node.name ∘ fun e : String × DirType => Node.mk e.1 e.2 []) = Prod.fst := by
        funext e
        rfl
      rw [this]
      exact hdiff
    · refine childrenInv_of_mem _ (fun c hc => ?_)
      obtain ⟨e, he, rfl⟩ := List.mem_map.mp hc
      exact ⟨hval e he, rfl⟩

theorem scan_dir_name (entries : List (String × DirType)) (m : Node) :
    (Node.scan_dir entries m).name = m.name := by
  cases m with | mk nm ty cs => rfl

theorem wf_open_dir (t : DirTree) (path : String)
    (entries : List (String × DirType)) (h : t.wf = true)
    (hval : ∀ e ∈ entries, validName e.1 = true)
    (hdiff : allDiff (entries.map Prod.fst) = true) :
    ((t.open_dir path (.ok entries)).1).wf = true := by
  have hwf2 : (t.base_node.name == ".") = true ∧ Node.inv t.base_node = true := by
    simpa [DirTree.wf, Bool.and_eq_true] using h
  rw [DirTree.open_dir]
  cases hres : t.resolve_node_fp path with
  | none => exact h
  | some pr =>
    cases pr with
    | mk node fp =>
      dsimp only
      by_cases hg : (node.children.isEmpty && (node.type_ == DirType.Dir)) = true
      · rw [if_pos hg]
        have hemp : node.children = [] := by
          simp only [Bool.and_eq_true, List.isEmpty_iff] at hg
          exact hg.1
        rw [DirTree.modify_at]
        by_cases hp : path = "."
        · rw [if_pos hp]
          have hnode : node = t.base_node := by
            rw [DirTree.resolve_node_fp, if_pos hp] at hres
            injection hres with h1
            injection h1 with h2 h3
            exact h2.symm
          simp only [DirTree.wf, Bool.and_eq_true]
          refine ⟨by rw [scan_dir_name]; exact hwf2.1, ?_⟩
          exact inv_scan_empty entries t.base_node (hnode ▸ hemp) hval hdiff
        · rw [if_neg hp]
          have hwalk : walkFirst t.base_node (segsOf path) = some node := by
            rw [DirTree.resolve_node_fp, if_neg hp] at hres
            rw [walkFirst_eq_walkFp _ _ t.base_node.name, hres]
            rfl
          simp only [DirTree.wf, Bool.and_eq_true]
          constructor
          · rw [modifySegs_name _ (scan_dir_name entries)]
            exact hwf2.1
          · refine inv_modifySegs_cond _ (scan_dir_name entries) _ _ hwf2.2 ?_
            intro m hm hw
            rw [hwalk] at hw
            have hw2 : node = m := by injection hw
            subst hw2
            exact inv_scan_empty entries node hemp hval hdiff
      · rw [if_neg hg]
        exact h

end Irm
